import Mathlib

/-!
Shallow embedding of the DKIM core of `emersion/go-msgauth` (package `dkim`),
together with theorems checking the natural-language specification against it.

Go byte strings are modelled as `List Char` (all inputs of interest are
ASCII).  Go `map[string]string` values are modelled as association lists
`List (List Char × List Char)` whose key lists are duplicate-free; map
assignment is modelled by an overwriting insert and map equality is
extensional (equality of `lookup`).
-/

deriving instance DecidableEq for Except

namespace Msgauth

/-- `"\r\n"` as a character list (Go constant `crlf` in the dkim package). -/
def crlfL : List Char := ['\r', '\n']

/-- Whitespace as recognised by Go `unicode.IsSpace` restricted to the
Latin-1 range (`'\t'`, `'\n'`, `'\v'`, `'\f'`, `'\r'`, `' '`, NEL, NBSP);
all data handled by the dkim package is ASCII, where this agrees with Go. -/
def goIsSpace (c : Char) : Bool :=
  c = ' ' || c = '\t' || c = '\n' || (c = Char.ofNat 11) || (c = Char.ofNat 12) ||
  c = '\r' || (c = Char.ofNat 133) || (c = Char.ofNat 160)

/-- Go `strings.TrimSpace` (drop leading and trailing whitespace). -/
def goTrimSpace (s : List Char) : List Char :=
  ((s.dropWhile goIsSpace).reverse.dropWhile goIsSpace).reverse

/-- Go `strings.ToLower`, restricted to ASCII letters (all header names in
play are ASCII, where this agrees with Go). -/
def goToLower (s : List Char) : List Char :=
  s.map fun c => if 'A' ≤ c ∧ c ≤ 'Z' then Char.ofNat (c.toNat + 32) else c

/-- Go `strings.Split(s, sep)` for a one-character separator: the list of
substrings between occurrences of `sep` (always one more piece than
separators). -/
def splitOnChar (sep : Char) : List Char → List (List Char)
  | [] => [[]]
  | c :: rest =>
    if c = sep then [] :: splitOnChar sep rest
    else
      match splitOnChar sep rest with
      | [] => [[c]]
      | piece :: pieces => (c :: piece) :: pieces

/-- Go `strings.SplitN(s, sep, 2)` for a one-character separator: split at
the first occurrence of `sep`, or return the whole string as a single piece
when `sep` does not occur. -/
def splitN2 (sep : Char) : List Char → List (List Char)
  | [] => [[]]
  | c :: rest =>
    if c = sep then [[], rest]
    else
      match splitN2 sep rest with
      | [] => [[c]]
      | piece :: pieces => (c :: piece) :: pieces

/-- Does `pat` occur at the start of `l`? (Go `strings.HasPrefix`.) -/
def beginsWith : List Char → List Char → Bool
  | [], _ => true
  | _ :: _, [] => false
  | p :: ps, c :: cs => p = c && beginsWith ps cs

/-- Does `pat` occur at the end of `l`? -/
def finishesWith (pat l : List Char) : Bool :=
  beginsWith pat.reverse l.reverse

/-- Does `pat` occur as a contiguous substring of `l`? -/
def containsSeq (pat : List Char) : List Char → Bool
  | [] => beginsWith pat []
  | c :: cs => beginsWith pat (c :: cs) || containsSeq pat cs

/-! ## Header reader (`readHeader` in the dkim package)

`readHeader` pulls lines off a `textproto.Reader`.  `ReadLine` returns the
line with its terminating `"\r\n"` or `"\n"` stripped; at EOF it returns an
error.  The loop below inlines `ReadLine` so that the recursion is
structural on the input: `cur` accumulates the current line in reverse. -/

/-- The `header` type of the dkim package: an ordered list of raw header
field strings, each ending in CRLF. -/
def Header := List (List Char)

/-- Strip one trailing `'\r'` (the `"\r\n"` versus `"\n"` line-terminator
normalisation performed by `textproto.Reader.ReadLine`). `lrev` is the line
accumulated in reverse. -/
def finishLine (lrev : List Char) : List Char :=
  match lrev with
  | '\r' :: rest => rest.reverse
  | _ => lrev.reverse

/-- Append `s` to the last element of `h` (the Go statement
`h[len(h)-1] += l + crlf`; only called with `h ≠ []`). -/
def appendToLast (h : List (List Char)) (s : List Char) : List (List Char) :=
  match h with
  | [] => []
  | [f] => [f ++ s]
  | f :: rest => f :: appendToLast rest s

/-- The loop body of `readHeader`: consume the input character by
character; on `'\n'` finish the current line and dispatch on it. -/
def readHeaderGo (h : List (List Char)) (cur : List Char) :
    List Char → Except Unit (List (List Char) × List Char)
  | [] => .error ()
  | c :: rest =>
    if c = '\n' then
      let l := finishLine cur
      if l = [] then .ok (h, rest)
      else if h ≠ [] ∧ (l.headD ' ' = ' ' ∨ l.headD ' ' = '\t') then
        readHeaderGo (appendToLast h (l ++ crlfL)) [] rest
      else
        readHeaderGo (h ++ [l ++ crlfL]) [] rest
    else
      readHeaderGo h (c :: cur) rest

/-- `readHeader`: split the input into raw header fields (each with its
terminating CRLF, continuation lines joined onto the previous field) and
the remaining body; error when EOF is reached before the blank separator
line. -/
def readHeader (input : List Char) : Except Unit (List (List Char) × List Char) :=
  readHeaderGo [] [] input

/-- The dispatch of the `readHeader` loop expressed at line granularity
(the same branching as `readHeaderGo` once `ReadLine` has delivered the
line `l`): an SP/HTAB-led line is appended with its CRLF to the previous
field, any other line starts a new field. -/
def groupCont (h : List (List Char)) : List (List Char) → List (List Char)
  | [] => h
  | l :: rest =>
    if h ≠ [] ∧ (l.headD ' ' = ' ' ∨ l.headD ' ' = '\t') then
      groupCont (appendToLast h (l ++ crlfL)) rest
    else groupCont (h ++ [l ++ crlfL]) rest

/-- `parseHeaderField`: split a raw field at the first `':'` and trim both
sides (the value is empty when there is no colon). -/
def parseHeaderField (s : List Char) : List Char × List Char :=
  match splitN2 ':' s with
  | [k] => (goTrimSpace k, [])
  | k :: v :: _ => (goTrimSpace k, goTrimSpace v)
  | [] => ([], [])

/-! ## Tag list parser / formatter -/

/-- Overwriting insert into an association list: the model of the Go map
assignment `params[k] = v`. -/
def mapInsert (k v : List Char) : List (List Char × List Char) → List (List Char × List Char)
  | [] => [(k, v)]
  | (k', v') :: rest => if k' = k then (k, v) :: rest else (k', v') :: mapInsert k v rest

/-- Lookup in an association list (Go map read `params[k]`, with the zero
value `""` for a missing key supplied by `lookupD`). -/
def mapLookup (k : List Char) : List (List Char × List Char) → Option (List Char)
  | [] => none
  | (k', v') :: rest => if k' = k then some v' else mapLookup k rest

/-- The loop of `parseHeaderParams` over the `";"`-separated segments. -/
def parseHeaderParamsGo (params : List (List Char × List Char)) :
    List (List Char) → Except Unit (List (List Char × List Char))
  | [] => .ok params
  | s :: rest =>
    match splitN2 '=' s with
    | [k, v] => parseHeaderParamsGo (mapInsert (goTrimSpace k) (goTrimSpace v) params) rest
    | _ =>
      if goTrimSpace s = [] then parseHeaderParamsGo params rest
      else .error ()

/-- `parseHeaderParams`: split on `';'`, skip whitespace-only segments
without `'='`, fail on any other segment without `'='`, and otherwise
split each segment at the first `'='` and insert the trimmed pair into the
map (the Go map assignment overwrites earlier bindings). -/
def parseHeaderParams (s : List Char) : Except Unit (List (List Char × List Char)) :=
  parseHeaderParamsGo [] (splitOnChar ';' s)

/-- The header field name `"DKIM-Signature"` (constant `headerFieldName`). -/
def headerFieldName : List Char := "DKIM-Signature".toList

/-- Cut a list into chunks of `n` characters (the `buf.Read(line)` loop of
`foldHeaderField` with a 75-byte buffer); `k` counts the remaining capacity
of the current chunk and `acc` holds the current chunk in reverse. -/
def chunksOfAux (n : Nat) (acc : List Char) (k : Nat) : List Char → List (List Char)
  | [] => if acc.isEmpty then [] else [acc.reverse]
  | c :: rest =>
    if k ≤ 1 then (c :: acc).reverse :: chunksOfAux n [] n rest
    else chunksOfAux n (c :: acc) (k - 1) rest

/-- Cut a list into chunks of `n` characters (last chunk may be shorter). -/
def chunksOf (n : Nat) (l : List Char) : List (List Char) :=
  chunksOfAux n [] n l

/-- `foldHeaderField`: break `kv` into 75-byte segments joined by
`"\r\n "` (78-column folding, `78 - len("\r\n ")`). -/
def foldHeaderField (kv : List Char) : List Char :=
  List.intercalate ('\r' :: '\n' :: [' ']) (chunksOf 75 kv)

/-- The loop of `wrapHeaders` over the `":"`-separated header names.
`avail` may go negative, hence `Int`. -/
def wrapHeadersGo (avail : Int) : List (List Char) → List Char
  | [] => []
  | hd :: rest =>
    let chars : Int := hd.length + 1
    let pre := if avail < chars then crlfL ++ [' '] else []
    let avail1 : Int := (if avail < chars then 75 else avail) - chars
    pre ++ hd ++ (if rest.isEmpty then [';'] else [':']) ++ wrapHeadersGo avail1 rest

/-- `wrapHeaders`: emit `"h="` and the `":"`-separated header names, folding
at `':'` boundaries; the running budget starts at `75 - len(" h=")`. -/
def wrapHeaders (values : List Char) : List Char :=
  ['h', '='] ++ wrapHeadersGo (75 - 3) (splitOnChar ':' values)

/-- Strict bytewise lexicographic order on strings (Go `<` on `string`;
ASCII, where byte order and `Char` order agree). -/
def lexLt : List Char → List Char → Bool
  | [], [] => false
  | [], _ :: _ => true
  | _ :: _, [] => false
  | a :: as, b :: bs => if a = b then lexLt as bs else decide (a < b)

/-- Insert `x` into a list sorted by the (non-strict) comparison `le`. -/
def insertLe {α : Type} (le : α → α → Bool) (x : α) : List α → List α
  | [] => [x]
  | y :: ys => if le x y then x :: y :: ys else y :: insertLe le x ys

/-- Insertion sort by `le`.  `sort.Slice` in Go is not stable, but the
comparator used by `formatHeaderParams` is a strict total order on the
(distinct) keys of a map, so the sorted permutation is unique and equals
the one Go produces whatever the (random) map iteration order was. -/
def sortByLe {α : Type} (le : α → α → Bool) : List α → List α
  | [] => []
  | x :: xs => insertLe le x (sortByLe le xs)

/-- The comparator of `formatHeaderParams`: ascending length of the value,
ties broken by key (here as a non-strict order for insertion sort). -/
def keyLe (m : List (List Char × List Char)) (a b : List Char) : Bool :=
  let va := (mapLookup a m).getD []
  let vb := (mapLookup b m).getD []
  if va.length = vb.length then (lexLt a b || a = b) else decide (va.length < vb.length)

/-- The emission loop of `formatHeaderParams` over the sorted keys. -/
def formatParamsGo (m : List (List Char × List Char)) (avail : Int) :
    List (List Char) → List Char
  | [] => []
  | k :: rest =>
    let v := (mapLookup k m).getD []
    let chars : Int := k.length + v.length + 3
    let reset := avail < chars || k = ['b']
    let pre := if reset then crlfL else []
    let avail1 : Int := (if reset then 75 else avail) - chars
    let piece :=
      if avail1 < 0 then
        if k = ['h'] then wrapHeaders v
        else foldHeaderField (k ++ ['='] ++ v ++ [';'])
      else k ++ ['='] ++ v ++ [';']
    pre ++ [' '] ++ piece ++ formatParamsGo m avail1 rest

/-- `formatHeaderParams`: sort the keys by ascending value length (ties by
key), force `"b"` last, and emit `" k=v;"` pieces with RFC 6376 line
folding; an oversized tag is folded into 75-byte segments
(`foldHeaderField`), an oversized `"h"` tag at `':'` boundaries
(`wrapHeaders`). -/
def formatHeaderParams (m : List (List Char × List Char)) : List Char :=
  let allKeys := m.map (·.1)
  let ks := allKeys.filter (· ≠ ['b'])
  let found := decide (['b'] ∈ allKeys)
  let sorted := sortByLe (keyLe m) ks
  let keys := if found then sorted ++ [['b']] else sorted
  formatParamsGo m (75 - (headerFieldName.length : Int) - 2) keys

/-! ## Header picker -/

/-- Counter lookup in the `picked` map (Go `p.picked[key]`, zero value 0). -/
def pickedGet (m : List (List Char × Nat)) (k : List Char) : Nat :=
  match m with
  | [] => 0
  | (k', n) :: rest => if k' = k then n else pickedGet rest k

/-- Increment in the `picked` map (Go `p.picked[key]++`). -/
def pickedInc (m : List (List Char × Nat)) (k : List Char) : List (List Char × Nat) :=
  match m with
  | [] => [(k, 1)]
  | (k', n) :: rest => if k' = k then (k', n + 1) :: rest else (k', n) :: pickedInc rest k

/-- The scanning loop of `Pick`, iterating over the header fields from the
bottom (`l` is the reversed header list) and skipping the first `skip`
matches; `key` is already lowercased. -/
def pickGo (key : List Char) : List (List Char) → Nat → Option (List Char)
  | [], _ => none
  | kv :: rest, skip =>
    if goToLower (parseHeaderField kv).1 ≠ key then pickGo key rest skip
    else match skip with
      | 0 => some kv
      | n + 1 => pickGo key rest n

/-- The state of a `headerPicker`. -/
structure HeaderPicker where
  h : List (List Char)
  picked : List (List Char × Nat)

/-- `newHeaderPicker`. -/
def newHeaderPicker (h : List (List Char)) : HeaderPicker := ⟨h, []⟩

/-- `Pick`: return the next occurrence of `key` counting from the bottom of
the header list, bumping the per-key counter on success; return `""` (and
leave the counter unchanged) when no occurrence is left. -/
def HeaderPicker.Pick (p : HeaderPicker) (key : List Char) : List Char × HeaderPicker :=
  let key := goToLower key
  match pickGo key p.h.reverse (pickedGet p.picked key) with
  | some kv => (kv, ⟨p.h, pickedInc p.picked key⟩)
  | none => ([], p)

/-- The result of the `n`-th (0-based) successive call of `Pick` with the
same key, starting from picker state `p`. -/
def pickRun (p : HeaderPicker) (key : List Char) : Nat → List Char
  | 0 => (p.Pick key).1
  | n + 1 => pickRun (p.Pick key).2 key n

/-! ## Canonicalizers (`canonical.go`) -/

/-- The loop body of `fixCRLF`: `prev` is the previously read input
character (`b[i-1]`), against which a `'\n'` is checked. -/
def fixCRLFAux (prev : Option Char) : List Char → List Char
  | [] => []
  | c :: rest =>
    if c = '\n' ∧ prev ≠ some '\r' then '\r' :: '\n' :: fixCRLFAux (some '\n') rest
    else c :: fixCRLFAux (some c) rest

/-- `fixCRLF`: insert a `'\r'` before any `'\n'` that is not already
preceded by one. -/
def fixCRLF (b : List Char) : List Char :=
  fixCRLFAux none b

/-- Strip `"\r\n"` pairs from the end of a buffer, working on the reversed
list (the `for end >= 2 { ... end -= 2 }` loop of
`simpleBodyCanonicalizer.Write` read right to left). -/
def dropPairsRev : List Char → List Char
  | [] => []
  | [c] => [c]
  | c1 :: c2 :: rest =>
    if c1 = '\n' ∧ c2 = '\r' then dropPairsRev rest else c1 :: c2 :: rest

/-- Strip one `'\r'` from the end of a buffer, working on the reversed list
(the `if end > 0 && b[end-1] == '\r' { end-- }` step). -/
def dropOneCRRev : List Char → List Char
  | [] => []
  | c :: rest => if c = '\r' then rest else c :: rest

/-- Split the working buffer of `simpleBodyCanonicalizer.Write` into the
part that is certainly kept (`b[:end]`) and the part buffered for the next
write (`b[end:]`): drop one trailing `'\r'`, then all trailing `"\r\n"`
pairs. -/
def stripSplit (b : List Char) : List Char × List Char :=
  let keptRev := dropPairsRev (dropOneCRRev b.reverse)
  (keptRev.reverse, b.drop keptRev.length)

/-- `simpleBodyCanonicalizer.Write`: prepend the pending buffer, fix lone
LFs, emit the certain prefix and keep the trailing CRLF run (plus a
possible trailing CR) pending.  Returns `(emitted, new crlfBuf)`. -/
def simpleWrite (crlfBuf chunk : List Char) : List Char × List Char :=
  stripSplit (fixCRLF (crlfBuf ++ chunk))

/-- `simpleBodyCanonicalizer.Close`: flush the pending buffer only when it
ends in a lone `'\r'`, then emit the final CRLF. -/
def simpleClose (crlfBuf : List Char) : List Char :=
  (if crlfBuf ≠ [] ∧ crlfBuf.getLast? = some '\r' then crlfBuf else []) ++ crlfL

/-- Run a sequence of `Write` calls on the simple body canonicalizer,
returning the emitted bytes and the final pending buffer. -/
def simpleWrites (crlfBuf : List Char) : List (List Char) → List Char × List Char
  | [] => ([], crlfBuf)
  | c :: cs =>
    let (e, buf) := simpleWrite crlfBuf c
    let (es, buf') := simpleWrites buf cs
    (e ++ es, buf')

/-- All bytes the simple body canonicalizer passes to the underlying
writer for a given sequence of `Write` calls followed by `Close`. -/
def simpleBodyOutput (chunks : List (List Char)) : List Char :=
  let (e, buf) := simpleWrites [] chunks
  e ++ simpleClose buf

/-- The per-chunk emitted pieces of the simple body canonicalizer (each
`Write` emits one piece, `Close` a final one); `simpleBodyOutput` is their
concatenation. -/
def simpleBodyPieces (chunks : List (List Char)) : List (List Char) :=
  let rec go (buf : List Char) : List (List Char) → List (List Char)
    | [] => [simpleClose buf]
    | c :: cs =>
      let (e, buf') := simpleWrite buf c
      e :: go buf' cs
  go [] chunks

/-- The state of `relaxedBodyCanonicalizer`. -/
structure RelaxedState where
  crlfBuf : List Char
  wspBuf : List Char
  written : Bool

/-- The character loop of `relaxedBodyCanonicalizer.Write`: whitespace and
CR/LF are buffered; any other character first flushes the pending CRLFs,
then a single `' '` for any pending whitespace, then itself.  Returns the
canonical bytes of this chunk and the updated buffers. -/
def relaxedChars (crlfBuf wspBuf : List Char) : List Char → List Char × List Char × List Char
  | [] => ([], crlfBuf, wspBuf)
  | ch :: rest =>
    if ch = ' ' ∨ ch = '\t' then
      relaxedChars crlfBuf (wspBuf ++ [ch]) rest
    else if ch = '\r' ∨ ch = '\n' then
      relaxedChars (crlfBuf ++ [ch]) [] rest
    else
      let flushed := crlfBuf ++ (if wspBuf.isEmpty then [] else [' ']) ++ [ch]
      let r := relaxedChars [] [] rest
      (flushed ++ r.1, r.2)

/-- `relaxedBodyCanonicalizer.Write`: fix lone LFs of this chunk (the Go
code applies `fixCRLF` to the chunk alone, without the pending state),
run the character loop and update the `written` flag. -/
def relaxedWrite (st : RelaxedState) (chunk : List Char) : List Char × RelaxedState :=
  let (canonical, cb, wb) := relaxedChars st.crlfBuf st.wspBuf (fixCRLF chunk)
  (canonical, ⟨cb, wb, st.written || !canonical.isEmpty⟩)

/-- `relaxedBodyCanonicalizer.Close`: emit the final CRLF only when some
canonical byte was written. -/
def relaxedClose (st : RelaxedState) : List Char :=
  if st.written then crlfL else []

/-- Run a sequence of `Write` calls on the relaxed body canonicalizer. -/
def relaxedWrites (st : RelaxedState) : List (List Char) → List Char × RelaxedState
  | [] => ([], st)
  | c :: cs =>
    let (e, st') := relaxedWrite st c
    let (es, st'') := relaxedWrites st' cs
    (e ++ es, st'')

/-- All bytes the relaxed body canonicalizer passes to the underlying
writer for a given sequence of `Write` calls followed by `Close`. -/
def relaxedBodyOutput (chunks : List (List Char)) : List Char :=
  let (e, st) := relaxedWrites ⟨[], [], false⟩ chunks
  e ++ relaxedClose st

/-- The per-chunk emitted pieces of the relaxed body canonicalizer. -/
def relaxedBodyPieces (chunks : List (List Char)) : List (List Char) :=
  let rec go (st : RelaxedState) : List (List Char) → List (List Char)
    | [] => [relaxedClose st]
    | c :: cs =>
      let (e, st') := relaxedWrite st c
      e :: go st' cs
  go ⟨[], [], false⟩ chunks

/-- `limitedWriter.Write` over an always-accepting underlying writer (the
hasher): returns the bytes delivered downstream, the new budget `N`, and
the byte count reported to the caller.  When the budget is exhausted the
input is swallowed whole; otherwise it is truncated to the budget (the
`skipped` variable is computed after the truncation and is always 0). -/
def limitedWrite (n : Int) (b : List Char) : List Char × Int × Nat :=
  if n ≤ 0 then ([], n, b.length)
  else
    let b' := if (b.length : Int) > n then b.take n.toNat else b
    let skipped : Int := if (b.length : Int) > n then (b'.length : Int) - n else 0
    (b', n - b'.length, (b'.length + skipped.toNat))

/-- Feed a sequence of chunks through `limitedWriter`, collecting the bytes
delivered to the underlying writer. -/
def limitedWrites (n : Int) : List (List Char) → List Char
  | [] => []
  | c :: cs =>
    let (d, n', _) := limitedWrite n c
    d ++ limitedWrites n' cs

/-! ## Verification errors and the hash checks of `verify` (`dkim.go`) -/

/-- The classified error values of the dkim package: `permFailError`,
`tempFailError` and `failError` are distinct string types in Go; any other
error reaching the classification predicates is `otherError`. -/
inductive DKIMError : Type
  | permFailError (s : List Char)
  | tempFailError (s : List Char)
  | failError (s : List Char)
  | otherError (s : List Char)
deriving DecidableEq

/-- `IsPermFail`: the type assertion `err.(permFailError)`. -/
def IsPermFail : DKIMError → Bool
  | .permFailError _ => true
  | _ => false

/-- `IsTempFail`: the type assertion `err.(tempFailError)`. -/
def IsTempFail : DKIMError → Bool
  | .tempFailError _ => true
  | _ => false

/-- `isFail`: the type assertion `err.(failError)`. -/
def isFail : DKIMError → Bool
  | .failError _ => true
  | _ => false

/-- `subtle.ConstantTimeCompare`: 1 iff the two byte strings have equal
length and contents, 0 otherwise (the constant-time accumulation is
modelled extensionally). -/
def constantTimeCompare (x y : List Nat) : Nat :=
  if x.length ≠ y.length then 0
  else if x = y then 1 else 0

/-- The final checks of `verify` (dkim.go): compare the computed body hash
against the decoded `bh` value in constant time, then ask the public-key
verifier to check the data hash against the decoded `b` value.
`verifierVerify` abstracts `res.Verifier.Verify`, returning the error
message on failure. -/
def verifyCheckHashes (bodyHash bodyHashed dataHash sig : List Nat)
    (verifierVerify : List Nat → List Nat → Option (List Char)) : Except DKIMError Unit :=
  if constantTimeCompare bodyHash bodyHashed ≠ 1 then
    .error (.failError "body hash did not verify".toList)
  else
    match verifierVerify dataHash sig with
    | some msg => .error (.failError ("signature did not verify: ".toList ++ msg))
    | none => .ok ()

/-- `stripWhitespace`: `strings.Map` dropping every whitespace rune. -/
def stripWhitespace (s : List Char) : List Char :=
  s.filter fun c => !goIsSpace c

/-- Parse a run of decimal digits (`none` when empty or non-digit). -/
def parseDecDigits (s : List Char) : Option Nat :=
  if s.isEmpty then none
  else s.foldl (fun acc c =>
    acc.bind fun n => if c.isDigit then some (n * 10 + (c.toNat - 48)) else none) (some 0)

/-- `strconv.ParseInt(s, 10, 64)`: optional sign and decimal digits.  The
int64 overflow check is not modelled (body-length values in scope are far
below 2^63). -/
def goParseInt (s : List Char) : Option Int :=
  match s with
  | '+' :: rest => (parseDecDigits rest).map Int.ofNat
  | '-' :: rest => (parseDecDigits rest).map fun n => -(n : Int)
  | _ => (parseDecDigits s).map Int.ofNat

/-- The `l=` tag handling of `verify` (dkim.go): absent means the whole
body (-1); a malformed or negative value is a permanent failure.  (The Go
error string for the malformed case embeds the `strconv` error text, which
is abbreviated here.) -/
def parseBodyLength (params : List (List Char × List Char)) : Except DKIMError Int :=
  match mapLookup ['l'] params with
  | none => .ok (-1)
  | some lenStr =>
    match goParseInt (stripWhitespace lenStr) with
    | none => .error (.permFailError "malformed body length".toList)
    | some l =>
      if l < 0 then .error (.permFailError "malformed body length: negative value".toList)
      else .ok l

/-- The two canonicalization algorithms. -/
inductive Canonicalization : Type
  | simple
  | relaxed
deriving DecidableEq

/-- The chunks a body canonicalizer writes downstream (one per `Write`
call, one on `Close`). -/
def bodyCanPieces (can : Canonicalization) (chunks : List (List Char)) : List (List Char) :=
  match can with
  | .simple => simpleBodyPieces chunks
  | .relaxed => relaxedBodyPieces chunks

/-- The full canonicalized body. -/
def canonicalBody (can : Canonicalization) (chunks : List (List Char)) : List Char :=
  match can with
  | .simple => simpleBodyOutput chunks
  | .relaxed => relaxedBodyOutput chunks

/-- The bytes delivered to the body hasher by `verify` (dkim.go, "Check
body hash"): the canonicalizer writes into the hasher, wrapped in a
`limitedWriter` when `bodyLen >= 0`. -/
def bodyHasherInput (can : Canonicalization) (bodyLen : Int) (chunks : List (List Char)) :
    List Char :=
  if bodyLen ≥ 0 then limitedWrites bodyLen (bodyCanPieces can chunks)
  else (bodyCanPieces can chunks).flatten

/-! ## `VerifyWithOptions` with `MaxVerifications` -/

/-- The scan of `VerifyWithOptions` over the header fields: collect the
index and value of every field whose name equals `DKIM-Signature` up to
case (`strings.EqualFold`, modelled by lowercasing; ASCII). -/
def scanSignatures (h : List (List Char)) : List (Nat × List Char) :=
  (h.enum.filter fun p => goToLower (parseHeaderField p.2).1 = goToLower headerFieldName).map
    fun p => (p.1, (parseHeaderField p.2).2)

/-- The distinguished sentinel error `ErrTooManySignatures`. -/
inductive VerifyTopError : Type
  | tooManySignatures
deriving DecidableEq

/-- Modelled from the spec: `VerifyWithOptions` with the `MaxVerifications`
option.  The version of dkim.go under src/ predates this option (only
verify_test.go references it), so the truncation step is taken from the
spec: "If `MaxVerifications` is set and exceeded, produce partial
verifications for the first N and surface a distinguished `TooManySignatures`
error alongside those verifications."  Header reading and signature
scanning follow the source; the per-signature verification is abstracted
by `verifyOne`. -/
def verifyWithMaxVerifications {V : Type} (input : List Char) (maxVerifications : Nat)
    (verifyOne : Nat × List Char → V) : Except Unit (List V × Option VerifyTopError) :=
  match readHeader input with
  | .error _ => .error ()
  | .ok (h, _) =>
    let sigs := scanSignatures h
    if maxVerifications ≠ 0 ∧ sigs.length > maxVerifications then
      .ok ((sigs.take maxVerifications).map verifyOne, some .tooManySignatures)
    else
      .ok (sigs.map verifyOne, none)

/-! ## Reference definitions and auxiliary predicates for the claims -/

/-- Insert keeping the first binding of a key (used by the reference parser
below, whose claim text says the first occurrence of a tag name wins). -/
def insertFirstWins (m : List (List Char × List Char)) (k v : List Char) :
    List (List Char × List Char) :=
  if (mapLookup k m).isSome then m else m ++ [(k, v)]

/-- Is a segment "bad": non-empty (after trimming) but without `'='`? -/
def badSegment (seg : List Char) : Bool :=
  decide ((splitN2 '=' seg).length ≠ 2) && !(goTrimSpace seg).isEmpty

/-- Reference tag-list parser written from the claim: split the input on
`';'`; skip every segment that is empty or whitespace-only; fail when a
non-empty segment lacks `'='`; otherwise split each segment at the first
`'='`, trim name and value, and insert — with the FIRST occurrence of a
tag name winning. -/
def parseTagsSpecFirstWins (s : List Char) : Except Unit (List (List Char × List Char)) :=
  let segs := splitOnChar ';' s
  if segs.any badSegment then .error ()
  else
    .ok (segs.foldl (fun acc seg =>
      match splitN2 '=' seg with
      | [k, v] => insertFirstWins acc (goTrimSpace k) (goTrimSpace v)
      | _ => acc) [])

/-- The reference tag-list parser amended so that the LAST occurrence of a
duplicated tag name wins (everything else as in the claim). -/
def parseTagsSpecLastWins (s : List Char) : Except Unit (List (List Char × List Char)) :=
  let segs := splitOnChar ';' s
  if segs.any badSegment then .error ()
  else
    .ok (segs.foldl (fun acc seg =>
      match splitN2 '=' seg with
      | [k, v] => mapInsert (goTrimSpace k) (goTrimSpace v) acc
      | _ => acc) [])

/-- Does every `'\n'` follow a `'\r'`? (`prev` is the character before the
list, as in `fixCRLFAux`.) -/
def noLoneLF (prev : Option Char) : List Char → Bool
  | [] => true
  | c :: rest => !(c = '\n' && prev ≠ some '\r') && noLoneLF (some c) rest

/-- Is the character one of SP, HTAB, CR, LF? -/
def isWS4 (c : Char) : Bool :=
  c = ' ' || c = '\t' || c = '\r' || c = '\n'

/-- Every SP or HTAB is immediately followed by a character that is none
of SP, HTAB, CR, LF (so in particular no whitespace directly precedes a
CRLF, and no whitespace ends the list). -/
def wspOk : List Char → Bool
  | [] => true
  | c :: rest =>
    if c = ' ' || c = '\t' then
      (match rest with
       | [] => false
       | d :: _ => !isWS4 d) && wspOk rest
    else wspOk rest

/-- The shape of the pending buffer of the simple body canonicalizer: a
run of `"\r\n"` pairs followed by at most one `'\r'`. -/
def isCrlfBuf : List Char → Bool
  | [] => true
  | [c] => c = '\r'
  | c1 :: c2 :: rest => c1 = '\r' && c2 = '\n' && isCrlfBuf rest

/-- A pure run of `"\r\n"` pairs. -/
def pairsPure : List Char → Bool
  | [] => true
  | [_] => false
  | c1 :: c2 :: rest => c1 = '\r' && c2 = '\n' && pairsPure rest

/-- A pure run of pairs as seen on a reversed list (`'\n'` then `'\r'`). -/
def pairsBlocksRev : List Char → Bool
  | [] => true
  | [_] => false
  | c1 :: c2 :: rest => c1 = '\n' && c2 = '\r' && pairsBlocksRev rest

/-- No chunk boundary of the partition splits a CR from an immediately
following LF (`prev` is the last byte seen before the remaining chunks). -/
def noSplitCRLF (prev : Option Char) : List (List Char) → Bool
  | [] => true
  | c :: cs =>
    match c with
    | [] => noSplitCRLF prev cs
    | d :: _ => !(d = '\n' && prev = some '\r') && noSplitCRLF c.getLast? cs

/-- The well-formedness condition claim C1 needs of one tag pair: no
surrounding whitespace on name or value, no `';'` in either, no `'='` in
the name, and the formatted tag fits the 75-byte line budget (so neither
`foldHeaderField` nor `wrapHeaders` is ever invoked on it). -/
def cleanPair (k v : List Char) : Bool :=
  k.head?.all (fun c => !goIsSpace c) && k.getLast?.all (fun c => !goIsSpace c) &&
  v.head?.all (fun c => !goIsSpace c) && v.getLast?.all (fun c => !goIsSpace c) &&
  decide (';' ∉ k) && decide (';' ∉ v) && decide ('=' ∉ k) &&
  decide (k.length + v.length + 3 ≤ 75)

/-! ## Generic lemmas -/

theorem splitN2_length (sep : Char) (s : List Char) :
    (splitN2 sep s).length = 1 ∨ (splitN2 sep s).length = 2 := by
  induction s with
  | nil => left; rfl
  | cons c rest ih =>
    by_cases hc : c = sep
    · right; simp [splitN2, hc]
    · rcases ih with h1 | h2
      · left
        simp only [splitN2, if_neg hc]
        rcases hsp : splitN2 sep rest with _ | ⟨p, ps⟩
        · rfl
        · rw [hsp] at h1; simpa using h1
      · right
        simp only [splitN2, if_neg hc]
        rcases hsp : splitN2 sep rest with _ | ⟨p, ps⟩
        · rw [hsp] at h2; simp at h2
        · rw [hsp] at h2; simpa using h2

/-! ## Claim C2: tag-list parsing -/

theorem parseHeaderParamsGo_spec (segs : List (List Char))
    (acc : List (List Char × List Char)) :
    parseHeaderParamsGo acc segs =
      if segs.any badSegment then .error ()
      else
        .ok (segs.foldl (fun acc seg =>
          match splitN2 '=' seg with
          | [k, v] => mapInsert (goTrimSpace k) (goTrimSpace v) acc
          | _ => acc) acc) := by
  induction segs generalizing acc with
  | nil => rfl
  | cons s rest ih =>
    rcases hsp : splitN2 '=' s with _ | ⟨k, _ | ⟨v, _ | _⟩⟩
    · rcases splitN2_length '=' s with h | h <;> rw [hsp] at h <;> simp at h
    · have hbad : badSegment s = (!(goTrimSpace s).isEmpty) := by
        simp [badSegment, hsp]
      by_cases htrim : goTrimSpace s = []
      · have hb : badSegment s = false := by simp [hbad, htrim]
        have hL : parseHeaderParamsGo acc (s :: rest) = parseHeaderParamsGo acc rest := by
          simp [parseHeaderParamsGo, hsp, htrim]
        rw [hL, ih]
        simp [hb, hsp]
      · have hb : badSegment s = true := by simp [hbad, List.isEmpty_iff, htrim]
        have hL : parseHeaderParamsGo acc (s :: rest) = .error () := by
          simp [parseHeaderParamsGo, hsp, htrim]
        rw [hL]
        simp [hb]
    · have hbad : badSegment s = false := by simp [badSegment, hsp]
      simp only [parseHeaderParamsGo, hsp, List.any_cons, hbad, Bool.false_or,
        List.foldl_cons]
      rw [ih]
    · rcases splitN2_length '=' s with h | h <;> rw [hsp] at h <;> simp at h

/-- Claim C2 (amended): tag-list parsing behaves as the reference
definition — split on `';'`, skip empty/whitespace-only segments, fail on
a non-empty segment lacking `'='`, split at the first `'='` and trim —
except that when a tag name occurs more than once, the LAST occurrence
wins (the Go map assignment overwrites earlier bindings). -/
theorem claimC2_parseMatchesLastWinsReference (s : List Char) :
    parseHeaderParams s = parseTagsSpecLastWins s :=
  parseHeaderParamsGo_spec (splitOnChar ';' s) []

/-- Claim C2 (counterexample): on `"a=1;a=2"` the code keeps the LAST
occurrence (`a=2`), while the claim's reference definition (first
occurrence wins) keeps `a=1`; the results differ both structurally and on
lookup of `"a"`. -/
theorem claimC2_counterexample :
    parseHeaderParams ("a=1;a=2".toList) = .ok [("a".toList, "2".toList)] ∧
    parseTagsSpecFirstWins ("a=1;a=2".toList) = .ok [("a".toList, "1".toList)] ∧
    mapLookup "a".toList [("a".toList, "2".toList)] ≠
      mapLookup "a".toList [("a".toList, "1".toList)] := by
  refine ⟨by decide, by decide, by decide⟩

/-! ## Claim C3: body-hash mismatch error and classification -/

/-- Claim C3: whenever the computed body hash differs from the decoded
`bh` value, the hash-checking tail of `verify` returns exactly
`failError "body hash did not verify"`; a `failError` (this one, and the
one produced by a signature-verify failure) satisfies `IsPermFail = false`,
`IsTempFail = false` and `isFail = true`. -/
theorem claimC3_bodyHashFailClassification
    (bodyHash bodyHashed dataHash sig : List Nat)
    (vv : List Nat → List Nat → Option (List Char))
    (hne : bodyHash ≠ bodyHashed) :
    verifyCheckHashes bodyHash bodyHashed dataHash sig vv
        = .error (.failError "body hash did not verify".toList) ∧
    (∀ s : List Char, IsPermFail (.failError s) = false ∧ IsTempFail (.failError s) = false
        ∧ isFail (.failError s) = true) ∧
    (∀ (x : List Nat) (msg : List Char), vv dataHash sig = some msg →
        verifyCheckHashes x x dataHash sig vv
          = .error (.failError ("signature did not verify: ".toList ++ msg))) := by
  refine ⟨?_, fun s => ⟨rfl, rfl, rfl⟩, fun x msg hv => ?_⟩
  · unfold verifyCheckHashes constantTimeCompare
    by_cases hl : bodyHash.length = bodyHashed.length
    · simp [hl, hne]
    · simp [hl]
  · unfold verifyCheckHashes constantTimeCompare
    simp [hv]

theorem claimC3_bodyHashFailClassification_witness :
    ([0] : List Nat) ≠ [1] ∧
    verifyCheckHashes [0] [1] [] [] (fun _ _ => none)
      = .error (.failError "body hash did not verify".toList) :=
  ⟨by decide,
   (claimC3_bodyHashFailClassification [0] [1] [] [] (fun _ _ => none) (by decide)).1⟩

/-! ## Claim C4: the `l=` length limit -/

theorem limitedWrites_eq_take (n : Int) (hn : 0 ≤ n) (cs : List (List Char)) :
    limitedWrites n cs = cs.flatten.take n.toNat := by
  induction cs generalizing n with
  | nil => simp [limitedWrites]
  | cons c cs ih =>
    by_cases h0 : n ≤ 0
    · have hz : n = 0 := le_antisymm h0 hn
      subst hz
      simp [limitedWrites, limitedWrite, ih 0 le_rfl]
    · push_neg at h0
      by_cases hlen : (c.length : Int) > n
      · have htn : n.toNat ≤ c.length := by omega
        have hlt : (c.take n.toNat).length = n.toNat := by
          simp [List.length_take]; omega
        have hstep : limitedWrite n c = (c.take n.toNat, 0, n.toNat) := by
          simp only [limitedWrite, if_neg (not_le.mpr h0), if_pos hlen, hlt,
            Prod.mk.injEq]
          exact ⟨trivial, by omega, by omega⟩
        simp only [limitedWrites, hstep]
        rw [ih 0 le_rfl]
        simp only [Int.toNat_zero, List.take_zero, List.append_nil]
        rw [List.flatten_cons, List.take_append_eq_append_take]
        have : n.toNat - c.length = 0 := by omega
        simp [this]
      · push_neg at hlen
        have hstep : limitedWrite n c = (c, n - c.length, c.length) := by
          simp [limitedWrite, if_neg (not_le.mpr h0), if_neg (not_lt.mpr hlen)]
        simp only [limitedWrites, hstep]
        rw [ih (n - c.length) (by omega)]
        rw [List.flatten_cons, List.take_append_eq_append_take]
        have h1 : c.take n.toNat = c := List.take_of_length_le (by omega)
        have h2 : (n - (c.length : Int)).toNat = n.toNat - c.length := by omega
        rw [h1, h2]

theorem simpleBodyPieces_go_flatten (cs : List (List Char)) (buf : List Char) :
    (simpleBodyPieces.go buf cs).flatten
      = (simpleWrites buf cs).1 ++ simpleClose (simpleWrites buf cs).2 := by
  induction cs generalizing buf with
  | nil => simp [simpleBodyPieces.go, simpleWrites]
  | cons c cs ih =>
    rcases hw : simpleWrite buf c with ⟨e, buf1⟩
    simp only [simpleBodyPieces.go, hw, List.flatten_cons, ih buf1, simpleWrites]
    rcases hws : simpleWrites buf1 cs with ⟨es, buf2⟩
    simp

theorem relaxedBodyPieces_go_flatten (cs : List (List Char)) (st : RelaxedState) :
    (relaxedBodyPieces.go st cs).flatten
      = (relaxedWrites st cs).1 ++ relaxedClose (relaxedWrites st cs).2 := by
  induction cs generalizing st with
  | nil => simp [relaxedBodyPieces.go, relaxedWrites]
  | cons c cs ih =>
    rcases hw : relaxedWrite st c with ⟨e, st1⟩
    simp only [relaxedBodyPieces.go, hw, List.flatten_cons, ih st1, relaxedWrites]
    rcases hws : relaxedWrites st1 cs with ⟨es, st2⟩
    simp

theorem bodyCanPieces_flatten (can : Canonicalization) (chunks : List (List Char)) :
    (bodyCanPieces can chunks).flatten = canonicalBody can chunks := by
  cases can
  · exact simpleBodyPieces_go_flatten chunks []
  · exact relaxedBodyPieces_go_flatten chunks ⟨[], [], false⟩

/-- Claim C4: when the signature's `l=` tag parses to a non-negative body
length, the body hasher receives exactly the first `l` bytes of the
canonicalized body (the rest is swallowed by `limitedWriter` without any
error — the model of the hash pipeline is error-free); for `l=0` the
hasher receives nothing at all. -/
theorem claimC4_bodyLengthLimit (can : Canonicalization) (chunks : List (List Char))
    (params : List (List Char × List Char)) (bodyLen : Int)
    (hl : parseBodyLength params = .ok bodyLen) (hnn : 0 ≤ bodyLen) :
    bodyHasherInput can bodyLen chunks = (canonicalBody can chunks).take bodyLen.toNat ∧
    (mapLookup ['l'] params = some ['0'] → bodyHasherInput can bodyLen chunks = []) := by
  have hmain : bodyHasherInput can bodyLen chunks
      = (canonicalBody can chunks).take bodyLen.toNat := by
    unfold bodyHasherInput
    rw [if_pos hnn, limitedWrites_eq_take bodyLen hnn, bodyCanPieces_flatten]
  refine ⟨hmain, fun h0 => ?_⟩
  have hz : bodyLen = 0 := by
    unfold parseBodyLength at hl
    rw [h0] at hl
    simp [goParseInt, stripWhitespace, goIsSpace, parseDecDigits] at hl
    omega
  rw [hmain, hz]
  simp

theorem claimC4_bodyLengthLimit_witness :
    parseBodyLength [(['l'], ['5'])] = .ok 5 ∧ (0 : Int) ≤ 5 ∧
    bodyHasherInput .simple 5 ["Hi there".toList]
      = (canonicalBody .simple ["Hi there".toList]).take 5 :=
  ⟨by decide, by decide,
   (claimC4_bodyLengthLimit .simple ["Hi there".toList] [(['l'], ['5'])] 5
     (by decide) (by decide)).1⟩

/-! ## Claim C8: the header picker -/

theorem pickGo_eq_filter_get (key : List Char) (l : List (List Char)) (skip : Nat) :
    pickGo key l skip
      = (l.filter fun kv => goToLower (parseHeaderField kv).1 = key).get? skip := by
  induction l generalizing skip with
  | nil => simp [pickGo]
  | cons kv rest ih =>
    by_cases heq : goToLower (parseHeaderField kv).1 = key
    · cases skip with
      | zero => simp [pickGo, List.filter_cons, heq]
      | succ n => simp [pickGo, List.filter_cons, heq, ih n]
    · simp [pickGo, List.filter_cons, heq, ih skip]

theorem pickedGet_pickedInc (m : List (List Char × Nat)) (k : List Char) :
    pickedGet (pickedInc m k) k = pickedGet m k + 1 := by
  induction m with
  | nil => simp [pickedGet, pickedInc]
  | cons p rest ih =>
    rcases p with ⟨k', n⟩
    by_cases hk : k' = k
    · simp [pickedGet, pickedInc, hk]
    · simp [pickedGet, pickedInc, hk, ih]

theorem pickRun_eq_filter_get (h : List (List Char)) (picked : List (List Char × Nat))
    (key : List Char) (j : Nat) :
    pickRun ⟨h, picked⟩ key j
      = ((h.reverse.filter fun kv => goToLower (parseHeaderField kv).1 = goToLower key).get?
          (pickedGet picked (goToLower key) + j)).getD [] := by
  induction j generalizing picked with
  | zero =>
    simp only [pickRun, HeaderPicker.Pick, pickGo_eq_filter_get]
    rcases hg : (h.reverse.filter
        fun kv => goToLower (parseHeaderField kv).1 = goToLower key).get?
        (pickedGet picked (goToLower key)) with _ | kv
    · rw [Nat.add_zero, hg]; rfl
    · rw [Nat.add_zero, hg]; rfl
  | succ n ih =>
    simp only [pickRun, HeaderPicker.Pick, pickGo_eq_filter_get]
    rcases hg : (h.reverse.filter
        fun kv => goToLower (parseHeaderField kv).1 = goToLower key).get?
        (pickedGet picked (goToLower key)) with _ | kv
    · show pickRun ⟨h, picked⟩ key n = _
      rw [ih picked]
      have hlen : (h.reverse.filter
          fun kv => goToLower (parseHeaderField kv).1 = goToLower key).length
          ≤ pickedGet picked (goToLower key) := List.get?_eq_none.mp hg
      rw [List.get?_eq_none.mpr (by omega), List.get?_eq_none.mpr (by omega)]
    · show pickRun ⟨h, pickedInc picked (goToLower key)⟩ key n = _
      rw [ih (pickedInc picked (goToLower key)), pickedGet_pickedInc]
      have harith : pickedGet picked (goToLower key) + 1 + n
          = pickedGet picked (goToLower key) + (n + 1) := by omega
      rw [harith]

/-- Claim C8: starting from a fresh picker, the `i`-th call (counting from
1) of `Pick` with a key returns the `i`-th header field matching the key
case-insensitively, counting occurrences from the bottom of the header
list; once the occurrences are exhausted every further call returns the
empty string. -/
theorem claimC8_pickerBottomUp (h : List (List Char)) (key : List Char) (i : Nat)
    (hi : 1 ≤ i) :
    (pickRun (newHeaderPicker h) key (i - 1)
      = ((h.reverse.filter fun kv => goToLower (parseHeaderField kv).1 = goToLower key).get?
          (i - 1)).getD []) ∧
    ((h.reverse.filter fun kv => goToLower (parseHeaderField kv).1 = goToLower key).length < i →
      pickRun (newHeaderPicker h) key (i - 1) = []) := by
  have hmain := pickRun_eq_filter_get h [] key (i - 1)
  have hz : pickedGet [] (goToLower key) = 0 := rfl
  rw [hz, Nat.zero_add] at hmain
  refine ⟨hmain, fun hlen => ?_⟩
  show pickRun ⟨h, []⟩ key (i - 1) = []
  rw [hmain]
  have hnone : (h.reverse.filter
      fun kv => goToLower (parseHeaderField kv).1 = goToLower key).get? (i - 1) = none := by
    rw [List.get?_eq_none]
    omega
  rw [hnone]
  rfl

theorem claimC8_pickerBottomUp_witness :
    1 ≤ 2 ∧
    pickRun (newHeaderPicker ["To: trd".toList, "To: snd".toList, "To: fst".toList])
      "to".toList (2 - 1) = "To: snd".toList :=
  ⟨by decide,
   ((claimC8_pickerBottomUp ["To: trd".toList, "To: snd".toList, "To: fst".toList]
      "to".toList 2 (by decide)).1).trans (by decide)⟩

/-! ## String-matching lemmas -/

theorem beginsWith_iff (p l : List Char) : beginsWith p l = true ↔ ∃ t, l = p ++ t := by
  induction p generalizing l with
  | nil => simp [beginsWith]
  | cons a p ih =>
    cases l with
    | nil =>
      simp only [beginsWith]
      constructor
      · intro h; exact absurd h (by simp)
      · rintro ⟨t, ht⟩; simp at ht
    | cons c cs =>
      simp only [beginsWith, Bool.and_eq_true, decide_eq_true_eq, ih]
      constructor
      · rintro ⟨rfl, t, rfl⟩; exact ⟨t, rfl⟩
      · rintro ⟨t, ht⟩
        injection ht with h1 h2
        exact ⟨h1.symm, t, h2⟩

theorem beginsWith_append_self (p t : List Char) : beginsWith p (p ++ t) = true :=
  (beginsWith_iff p (p ++ t)).mpr ⟨t, rfl⟩

theorem finishesWith_iff (p l : List Char) : finishesWith p l = true ↔ ∃ t, l = t ++ p := by
  unfold finishesWith
  rw [beginsWith_iff]
  constructor
  · rintro ⟨t, ht⟩
    refine ⟨t.reverse, ?_⟩
    have := congrArg List.reverse ht
    simpa using this
  · rintro ⟨t, rfl⟩
    exact ⟨t.reverse, by simp⟩

theorem finishesWith_append_self (p l : List Char) : finishesWith p (l ++ p) = true :=
  (finishesWith_iff p (l ++ p)).mpr ⟨l, rfl⟩

/-! ## Claim C5: the simple body canonicalizer emits exactly one final CRLF -/

theorem dropPairsRev_not_pair (l : List Char) :
    ∀ c1 c2 t, dropPairsRev l = c1 :: c2 :: t → ¬(c1 = '\n' ∧ c2 = '\r') := by
  induction l using dropPairsRev.induct with
  | case1 => intro c1 c2 t h; simp [dropPairsRev] at h
  | case2 c => intro c1 c2 t h; simp [dropPairsRev] at h
  | case3 c1 c2 rest hpair ih =>
    intro d1 d2 t h
    rw [dropPairsRev, if_pos hpair] at h
    exact ih d1 d2 t h
  | case4 c1 c2 rest hpair =>
    intro d1 d2 t h
    rw [dropPairsRev, if_neg hpair] at h
    injection h with h1 h2
    injection h2 with h2 h3
    subst h1; subst h2
    exact hpair

theorem dropPairsRev_sfx (l : List Char) : ∃ d, l = d ++ dropPairsRev l := by
  induction l using dropPairsRev.induct with
  | case1 => exact ⟨[], rfl⟩
  | case2 c => exact ⟨[], rfl⟩
  | case3 c1 c2 rest hpair ih =>
    obtain ⟨d, hd⟩ := ih
    refine ⟨c1 :: c2 :: d, ?_⟩
    rw [dropPairsRev, if_pos hpair]
    simpa using hd
  | case4 c1 c2 rest hpair =>
    refine ⟨[], ?_⟩
    rw [dropPairsRev, if_neg hpair]
    rfl

theorem dropOneCRRev_sfx (l : List Char) : ∃ d, l = d ++ dropOneCRRev l := by
  cases l with
  | nil => exact ⟨[], rfl⟩
  | cons c rest =>
    by_cases hc : c = '\r'
    · exact ⟨[c], by simp [dropOneCRRev, hc]⟩
    · exact ⟨[], by simp [dropOneCRRev, hc]⟩

theorem stripSplit_eq (x : List Char) : x = (stripSplit x).1 ++ (stripSplit x).2 := by
  obtain ⟨e, he⟩ := dropOneCRRev_sfx x.reverse
  obtain ⟨f, hf⟩ := dropPairsRev_sfx (dropOneCRRev x.reverse)
  unfold stripSplit
  set keptRev := dropPairsRev (dropOneCRRev x.reverse) with hk
  have hx : x = keptRev.reverse ++ (e ++ f).reverse := by
    have : x.reverse = (e ++ f) ++ keptRev := by
      rw [List.append_assoc, ← hf, ← he]
    have h2 := congrArg List.reverse this
    simpa using h2
  have hdrop : x.drop keptRev.reverse.length = (e ++ f).reverse := by
    rw [hx]
    exact List.drop_left _ _
  simp only [hdrop]
  rw [List.length_reverse] at hdrop
  rw [hdrop]
  exact hx

theorem fixCRLFAux_head_ne_lf (p : Option Char) (l : List Char) (c : Char) (t : List Char)
    (h : fixCRLFAux p l = c :: t) (hp : p ≠ some '\r') : c ≠ '\n' := by
  cases l with
  | nil => simp [fixCRLFAux] at h
  | cons a rest =>
    by_cases ha : a = '\n'
    · rw [fixCRLFAux, if_pos ⟨ha, hp⟩] at h
      injection h with h1 _
      subst h1; decide
    · have : ¬(a = '\n' ∧ p ≠ some '\r') := fun hc => ha hc.1
      rw [fixCRLFAux, if_neg this] at h
      injection h with h1 _
      subst h1; exact ha

theorem notends_append_kept (W k : List Char) (hW : finishesWith crlfL W = false)
    (hk2 : ∀ c1 c2 t, k.reverse = c1 :: c2 :: t → ¬(c1 = '\n' ∧ c2 = '\r'))
    (hk1 : ∀ c, k = [c] → c ≠ '\n') :
    finishesWith crlfL (W ++ k) = false := by
  rcases hkr : k.reverse with _ | ⟨c1, _ | ⟨c2, t⟩⟩
  · have : k = [] := by simpa using congrArg List.reverse hkr
    simpa [this] using hW
  · have hk : k = [c1] := by
      have := congrArg List.reverse hkr
      simpa using this
    have hc1 : c1 ≠ '\n' := hk1 c1 hk
    subst hk
    unfold finishesWith crlfL
    rw [List.reverse_append]
    simp [beginsWith, Ne.symm hc1]
  · have hnp : ¬(c1 = '\n' ∧ c2 = '\r') := hk2 c1 c2 t hkr
    unfold finishesWith crlfL
    rw [List.reverse_append, hkr]
    by_cases h1 : c1 = '\n'
    · have h2 : c2 ≠ '\r' := fun hc => hnp ⟨h1, hc⟩
      simp [beginsWith, h1, Ne.symm h2]
    · simp [beginsWith, Ne.symm h1]

theorem simpleWrite_kept_not_pair (buf chunk : List Char) :
    ∀ c1 c2 t, (simpleWrite buf chunk).1.reverse = c1 :: c2 :: t → ¬(c1 = '\n' ∧ c2 = '\r') := by
  intro c1 c2 t h
  unfold simpleWrite stripSplit at h
  simp only [List.reverse_reverse] at h
  exact dropPairsRev_not_pair _ c1 c2 t h

theorem simpleWrite_kept_singleton (buf chunk : List Char) (c : Char)
    (h : (simpleWrite buf chunk).1 = [c]) : c ≠ '\n' := by
  have hx := stripSplit_eq (fixCRLF (buf ++ chunk))
  have hx' : fixCRLF (buf ++ chunk) = c :: (simpleWrite buf chunk).2 := by
    have : (simpleWrite buf chunk).1 = (stripSplit (fixCRLF (buf ++ chunk))).1 := rfl
    rw [this] at h
    have h2 : (simpleWrite buf chunk).2 = (stripSplit (fixCRLF (buf ++ chunk))).2 := rfl
    rw [h2]
    rw [h] at hx
    simpa using hx
  exact fixCRLFAux_head_ne_lf none _ c _ hx' (by simp)

theorem simpleWrites_notends (chunks : List (List Char)) (buf W : List Char)
    (hW : finishesWith crlfL W = false) :
    finishesWith crlfL (W ++ (simpleWrites buf chunks).1) = false := by
  induction chunks generalizing buf W with
  | nil => simpa [simpleWrites] using hW
  | cons c cs ih =>
    rcases hw : simpleWrite buf c with ⟨e, buf1⟩
    have he1 : e = (simpleWrite buf c).1 := by rw [hw]
    have hWe : finishesWith crlfL (W ++ e) = false := by
      refine notends_append_kept W e hW ?_ ?_
      · intro c1 c2 t ht
        exact simpleWrite_kept_not_pair buf c c1 c2 t (by rw [← he1]; exact ht)
      · intro d hd
        exact simpleWrite_kept_singleton buf c d (by rw [← he1]; exact hd)
    have := ih buf1 (W ++ e) hWe
    rcases hws : simpleWrites buf1 cs with ⟨es, buf2⟩
    simp only [simpleWrites, hw, hws]
    rw [hws] at this
    simpa [List.append_assoc] using this

theorem simpleWrites_empty (chunks : List (List Char)) (hall : ∀ c ∈ chunks, c = []) :
    simpleWrites [] chunks = ([], []) := by
  induction chunks with
  | nil => rfl
  | cons c cs ih =>
    have hc : c = [] := hall c (by simp)
    subst hc
    have hw : simpleWrite [] [] = ([], []) := by rfl
    simp only [simpleWrites, hw]
    rw [ih (fun c hc => hall c (by simp [hc]))]
    rfl

/-- Claim C5: for every sequence of `Write` calls followed by `Close`, the
simple body canonicalizer's output ends with exactly one CRLF — it ends
with `"\r\n"` but not with `"\r\n\r\n"` — and an entirely empty body
yields exactly `"\r\n"`. -/
theorem claimC5_simpleEndsWithOneCRLF (chunks : List (List Char)) :
    finishesWith crlfL (simpleBodyOutput chunks) = true ∧
    finishesWith (crlfL ++ crlfL) (simpleBodyOutput chunks) = false ∧
    (chunks.flatten = [] → simpleBodyOutput chunks = crlfL) := by
  rcases hws : simpleWrites [] chunks with ⟨E, buf⟩
  have hout : simpleBodyOutput chunks = E ++ simpleClose buf := by
    unfold simpleBodyOutput
    rw [hws]
  refine ⟨?_, ?_, ?_⟩
  · rw [hout]
    unfold simpleClose
    rw [← List.append_assoc]
    exact finishesWith_append_self crlfL _
  · rw [hout]
    unfold simpleClose
    by_cases hfl : buf ≠ [] ∧ buf.getLast? = some '\r'
    · rw [if_pos hfl]
      have hrev : ∃ br, buf.reverse = '\r' :: br := by
        rcases hbr : buf.reverse with _ | ⟨b0, br⟩
        · exfalso
          apply hfl.1
          simpa using congrArg List.reverse hbr
        · have hlast : buf.getLast? = some b0 := by
            rw [← List.head?_reverse, hbr]
            rfl
          rw [hfl.2] at hlast
          injection hlast with hb
          exact ⟨br, by rw [hb]⟩
      obtain ⟨br, hbr⟩ := hrev
      by_contra hcon
      rw [Bool.not_eq_false] at hcon
      obtain ⟨t, ht⟩ := (finishesWith_iff _ _).mp hcon
      have hrev2 := congrArg List.reverse ht
      simp only [List.reverse_append, hbr, crlfL, List.reverse_cons, List.reverse_nil,
        List.nil_append, List.append_assoc, List.cons_append] at hrev2
      simp at hrev2
    · rw [if_neg hfl]
      have hE : finishesWith crlfL E = false := by
        have hne := simpleWrites_notends chunks [] [] (by rfl)
        rw [hws] at hne
        simpa using hne
      by_contra hcon
      rw [Bool.not_eq_false] at hcon
      obtain ⟨t, ht⟩ := (finishesWith_iff _ _).mp hcon
      rw [List.nil_append, ← List.append_assoc] at ht
      have hEt : E = t ++ crlfL := List.append_cancel_right ht
      have : finishesWith crlfL E = true := (finishesWith_iff _ _).mpr ⟨t, hEt⟩
      rw [this] at hE
      exact Bool.noConfusion hE
  · intro hflat
    have hall : ∀ c ∈ chunks, c = [] := by
      intro c hc
      have := (List.flatten_eq_nil_iff).mp hflat
      exact this c hc
    rw [hout]
    have : simpleWrites [] chunks = ([], []) := simpleWrites_empty chunks hall
    rw [hws] at this
    injection this with h1 h2
    rw [h1, h2]
    rfl

/-! ## Claim C6: the relaxed body canonicalizer -/

theorem fixCRLFAux_mem (p : Option Char) (l : List Char) :
    (∀ c ∈ fixCRLFAux p l, c ∈ l ∨ c = '\r') ∧ (∀ c ∈ l, c ∈ fixCRLFAux p l) := by
  induction l generalizing p with
  | nil => simp [fixCRLFAux]
  | cons a rest ih =>
    by_cases ha : a = '\n' ∧ p ≠ some '\r'
    · rw [fixCRLFAux, if_pos ha]
      constructor
      · intro c hc
        rcases List.mem_cons.mp hc with hc | hc
        · right; exact hc
        · rcases List.mem_cons.mp hc with hc | hc
          · left; simp [hc, ha.1]
          · rcases (ih (some '\n')).1 c hc with h | h
            · left; simp [h]
            · right; exact h
      · intro c hc
        rcases List.mem_cons.mp hc with hc | hc
        · simp [hc, ha.1]
        · simp [(ih (some '\n')).2 c hc]
    · rw [fixCRLFAux, if_neg ha]
      constructor
      · intro c hc
        rcases List.mem_cons.mp hc with hc | hc
        · left; simp [hc]
        · rcases (ih (some a)).1 c hc with h | h
          · left; simp [h]
          · right; exact h
      · intro c hc
        rcases List.mem_cons.mp hc with hc | hc
        · simp [hc]
        · simp [(ih (some a)).2 c hc]

theorem fixCRLF_nonws_iff (l : List Char) :
    (∃ c ∈ fixCRLF l, isWS4 c = false) ↔ (∃ c ∈ l, isWS4 c = false) := by
  constructor
  · rintro ⟨c, hc, hws⟩
    rcases (fixCRLFAux_mem none l).1 c hc with h | h
    · exact ⟨c, h, hws⟩
    · subst h
      simp [isWS4] at hws
  · rintro ⟨c, hc, hws⟩
    exact ⟨c, (fixCRLFAux_mem none l).2 c hc, hws⟩

theorem relaxedChars_out_nil_iff (l cb wb : List Char) :
    (relaxedChars cb wb l).1 = [] ↔ ∀ c ∈ l, isWS4 c = true := by
  induction l generalizing cb wb with
  | nil => simp [relaxedChars]
  | cons ch rest ih =>
    by_cases hws : ch = ' ' ∨ ch = '\t'
    · rw [relaxedChars, if_pos hws]
      rw [ih]
      constructor
      · intro hall c hc
        rcases List.mem_cons.mp hc with hc | hc
        · rcases hws with h | h <;> simp [hc, h, isWS4]
        · exact hall c hc
      · intro hall c hc
        exact hall c (by simp [hc])
    · by_cases hcr : ch = '\r' ∨ ch = '\n'
      · rw [relaxedChars, if_neg hws, if_pos hcr]
        rw [ih]
        constructor
        · intro hall c hc
          rcases List.mem_cons.mp hc with hc | hc
          · rcases hcr with h | h <;> simp [hc, h, isWS4]
          · exact hall c hc
        · intro hall c hc
          exact hall c (by simp [hc])
      · rw [relaxedChars, if_neg hws, if_neg hcr]
        constructor
        · intro h
          exfalso
          rcases hwb : wb.isEmpty with _ | _ <;> simp [hwb] at h
        · intro hall
          exfalso
          have hch : isWS4 ch = true := hall ch (by simp)
          push_neg at hws hcr
          simp [isWS4, hws.1, hws.2, hcr.1, hcr.2] at hch

theorem relaxedWrites_written (st : RelaxedState) (cs : List (List Char)) :
    ((relaxedWrites st cs).2).written
      = (st.written || !((relaxedWrites st cs).1).isEmpty) := by
  induction cs generalizing st with
  | nil => simp [relaxedWrites]
  | cons c cs ih =>
    rcases hw : relaxedWrite st c with ⟨e, st1⟩
    rcases hws : relaxedWrites st1 cs with ⟨es, st2⟩
    have h1 : st1.written = (st.written || !e.isEmpty) := by
      have : st1 = (relaxedWrite st c).2 := by rw [hw]
      rw [this]
      unfold relaxedWrite
      rcases hrc : relaxedChars st.crlfBuf st.wspBuf (fixCRLF c) with ⟨o, cb, wb⟩
      have he : e = (relaxedWrite st c).1 := by rw [hw]
      rw [he]
      unfold relaxedWrite
      rw [hrc]
    have h2 := ih st1
    rw [hws] at h2
    have h2a : st2.written = (st1.written || !es.isEmpty) := h2
    simp only [relaxedWrites, hw, hws]
    rw [h2a, h1]
    rcases e with _ | ⟨x, xs⟩ <;> simp [List.isEmpty]

theorem relaxedWrites_out_nil_iff (cs : List (List Char)) (st : RelaxedState) :
    (relaxedWrites st cs).1 = [] ↔ ∀ c ∈ cs.flatten, isWS4 c = true := by
  induction cs generalizing st with
  | nil => simp [relaxedWrites]
  | cons c cs ih =>
    rcases hw : relaxedWrite st c with ⟨e, st1⟩
    rcases hws : relaxedWrites st1 cs with ⟨es, st2⟩
    simp only [relaxedWrites, hw, hws, List.flatten_cons, List.append_eq_nil]
    have he : e = (relaxedChars st.crlfBuf st.wspBuf (fixCRLF c)).1 := by
      have : e = (relaxedWrite st c).1 := by rw [hw]
      rw [this]
      unfold relaxedWrite
      rcases hrc : relaxedChars st.crlfBuf st.wspBuf (fixCRLF c) with ⟨o, cb, wb⟩
      rfl
    have h1 : e = [] ↔ ∀ x ∈ c, isWS4 x = true := by
      rw [he, relaxedChars_out_nil_iff]
      constructor
      · intro hall x hx
        by_contra hxny
        have : ∃ y ∈ c, isWS4 y = false := ⟨x, hx, by simpa using hxny⟩
        obtain ⟨y, hy, hyw⟩ := (fixCRLF_nonws_iff c).mpr this
        have := hall y hy
        rw [this] at hyw
        exact Bool.noConfusion hyw
      · intro hall x hx
        by_contra hxny
        have hx4 : ∃ y ∈ fixCRLF c, isWS4 y = false := ⟨x, hx, by simpa using hxny⟩
        obtain ⟨y, hy, hyw⟩ := (fixCRLF_nonws_iff c).mp hx4
        have := hall y hy
        rw [this] at hyw
        exact Bool.noConfusion hyw
    have h2 := ih st1
    rw [hws] at h2
    simp only [h1, h2]
    constructor
    · rintro ⟨ha, hb⟩ x hx
      rcases List.mem_append.mp hx with hx | hx
      · exact ha x hx
      · exact hb x hx
    · intro hall
      exact ⟨fun x hx => hall x (List.mem_append.mpr (Or.inl hx)),
             fun x hx => hall x (List.mem_append.mpr (Or.inr hx))⟩

theorem wspOk_append (A B : List Char) (hA : wspOk A = true) (hB : wspOk B = true) :
    wspOk (A ++ B) = true := by
  induction A with
  | nil => simpa using hB
  | cons c A ih =>
    by_cases hc : (c = ' ' || c = '\t') = true
    · simp only [wspOk, if_pos hc] at hA
      cases A with
      | nil => simp at hA
      | cons d A' =>
        simp only [Bool.and_eq_true] at hA
        simp only [List.cons_append, wspOk, if_pos hc, Bool.and_eq_true]
        exact ⟨hA.1, ih hA.2⟩
    · simp only [wspOk, if_neg hc] at hA
      simp only [List.cons_append, wspOk, if_neg hc]
      exact ih hA

theorem allCRLF_wspOk_append (u v : List Char) (hu : ∀ c ∈ u, c = '\r' ∨ c = '\n')
    (hv : wspOk v = true) : wspOk (u ++ v) = true := by
  induction u with
  | nil => simpa using hv
  | cons c u ih =>
    have hc : c = '\r' ∨ c = '\n' := hu c (by simp)
    have hcw : ¬((c = ' ' || c = '\t') = true) := by
      rcases hc with h | h <;> simp [h]
    simp only [List.cons_append, wspOk, if_neg hcw]
    exact ih fun d hd => hu d (by simp [hd])

theorem relaxedChars_wspOk (l : List Char) :
    ∀ cb wb, (∀ c ∈ cb, c = '\r' ∨ c = '\n') →
    (wspOk (relaxedChars cb wb l).1 = true ∧
     (∀ c ∈ (relaxedChars cb wb l).2.1, c = '\r' ∨ c = '\n')) := by
  induction l with
  | nil =>
    intro cb wb hcb
    exact ⟨rfl, hcb⟩
  | cons ch rest ih =>
    intro cb wb hcb
    by_cases hws : ch = ' ' ∨ ch = '\t'
    · rw [relaxedChars, if_pos hws]
      exact ih cb (wb ++ [ch]) hcb
    · by_cases hcr : ch = '\r' ∨ ch = '\n'
      · rw [relaxedChars, if_neg hws, if_pos hcr]
        refine ih (cb ++ [ch]) [] ?_
        intro c hc
        rcases List.mem_append.mp hc with h | h
        · exact hcb c h
        · simp at h
          subst h
          exact hcr
      · rw [relaxedChars, if_neg hws, if_neg hcr]
        obtain ⟨ih1, ih2⟩ := ih [] [] (by simp)
        push_neg at hws hcr
        have hch4 : !isWS4 ch = true := by
          simp [isWS4, hws.1, hws.2, hcr.1, hcr.2]
        have hchw : ¬((ch = ' ' || ch = '\t') = true) := by
          simp [hws.1, hws.2]
        constructor
        · show wspOk (((cb ++ (if wb.isEmpty then [] else [' '])) ++ [ch])
            ++ (relaxedChars [] [] rest).1) = true
          rw [List.append_assoc, List.append_assoc]
          refine allCRLF_wspOk_append cb _ hcb ?_
          by_cases hwb : wb.isEmpty
          · rw [if_pos hwb]
            simp [wspOk, hws.1, hws.2, ih1]
          · rw [if_neg hwb]
            simp [wspOk, isWS4, hws.1, hws.2, hcr.1, hcr.2, ih1]
        · exact ih2

theorem relaxedWrites_wspOk (cs : List (List Char)) (st : RelaxedState)
    (hcb : ∀ c ∈ st.crlfBuf, c = '\r' ∨ c = '\n') :
    wspOk (relaxedWrites st cs).1 = true ∧
    (∀ c ∈ ((relaxedWrites st cs).2).crlfBuf, c = '\r' ∨ c = '\n') := by
  induction cs generalizing st with
  | nil => exact ⟨rfl, hcb⟩
  | cons c cs ih =>
    rcases hw : relaxedWrite st c with ⟨e, st1⟩
    rcases hws : relaxedWrites st1 cs with ⟨es, st2⟩
    have hchars := relaxedChars_wspOk (fixCRLF c) st.crlfBuf st.wspBuf hcb
    have he : e = (relaxedChars st.crlfBuf st.wspBuf (fixCRLF c)).1 := by
      have h0 : e = (relaxedWrite st c).1 := by rw [hw]
      rw [h0]
      unfold relaxedWrite
      rcases relaxedChars st.crlfBuf st.wspBuf (fixCRLF c) with ⟨o, cb, wb⟩
      rfl
    have hst1 : st1.crlfBuf = (relaxedChars st.crlfBuf st.wspBuf (fixCRLF c)).2.1 := by
      have h0 : st1 = (relaxedWrite st c).2 := by rw [hw]
      rw [h0]
      unfold relaxedWrite
      rcases relaxedChars st.crlfBuf st.wspBuf (fixCRLF c) with ⟨o, cb, wb⟩
      rfl
    have hib := ih st1 (by rw [hst1]; exact hchars.2)
    rw [hws] at hib
    simp only [relaxedWrites, hw, hws]
    constructor
    · refine wspOk_append e es ?_ hib.1
      rw [he]
      exact hchars.1
    · exact hib.2

/-- Claim C6: for every sequence of `Write` calls followed by `Close`, the
relaxed body canonicalizer's output is either empty or ends with CRLF; the
output is non-empty (equivalently, the trailing CRLF is emitted on
`Close`) iff the body contains at least one byte other than SP, HTAB, CR
and LF; and no whitespace survives directly in front of a CR or LF (any
WSP run is either dropped before a CRLF or collapsed to one SP before a
non-whitespace byte). -/
theorem claimC6_relaxedOutputShape (chunks : List (List Char)) :
    (relaxedBodyOutput chunks = [] ∨ finishesWith crlfL (relaxedBodyOutput chunks) = true) ∧
    ((∃ c ∈ chunks.flatten, isWS4 c = false) ↔ relaxedBodyOutput chunks ≠ []) ∧
    wspOk (relaxedBodyOutput chunks) = true := by
  rcases hws : relaxedWrites ⟨[], [], false⟩ chunks with ⟨O, st⟩
  have hout : relaxedBodyOutput chunks = O ++ relaxedClose st := by
    unfold relaxedBodyOutput
    rw [hws]
  have hwr := relaxedWrites_written ⟨[], [], false⟩ chunks
  rw [hws] at hwr
  have hwr2 : st.written = !O.isEmpty := hwr
  have hnil := relaxedWrites_out_nil_iff chunks ⟨[], [], false⟩
  rw [hws] at hnil
  have hnil2 : O = [] ↔ ∀ c ∈ chunks.flatten, isWS4 c = true := hnil
  by_cases hO : O = []
  · subst hO
    have hwritten : st.written = false := by rw [hwr2]; rfl
    have houtnil : relaxedBodyOutput chunks = [] := by
      rw [hout]
      unfold relaxedClose
      rw [hwritten]
      rfl
    refine ⟨Or.inl houtnil, ?_, by rw [houtnil]; rfl⟩
    constructor
    · rintro ⟨c, hc, hcw⟩
      exfalso
      have := hnil2.mp rfl c hc
      rw [this] at hcw
      exact Bool.noConfusion hcw
    · intro hne
      exact absurd houtnil hne
  · have hwritten : st.written = true := by
      rw [hwr2]
      rcases O with _ | ⟨x, xs⟩
      · exact absurd rfl hO
      · rfl
    have houtf : relaxedBodyOutput chunks = O ++ crlfL := by
      rw [hout]
      unfold relaxedClose
      rw [hwritten]
      rfl
    refine ⟨Or.inr ?_, ?_, ?_⟩
    · rw [houtf]
      exact finishesWith_append_self crlfL O
    · constructor
      · intro _
        rw [houtf]
        rcases O with _ | ⟨x, xs⟩
        · exact absurd rfl hO
        · simp
      · intro _
        by_contra hnone
        push_neg at hnone
        have hall : ∀ c ∈ chunks.flatten, isWS4 c = true := by
          intro c hc
          have hb2 := hnone c hc
          rcases hb : isWS4 c with _ | _
          · exact absurd hb hb2
          · rfl
        exact hO (hnil2.mpr hall)
    · rw [houtf]
      have hOok := relaxedWrites_wspOk chunks ⟨[], [], false⟩ (by simp)
      rw [hws] at hOok
      exact wspOk_append O crlfL hOok.1 (by rfl)

/-! ## Claim C7: chunk-boundary insensitivity -/

/-- The last character of `u`, falling back to `p` when `u` is empty (the
`prev` context with which `fixCRLFAux` continues after `u`). -/
def lastCtx (p : Option Char) (u : List Char) : Option Char :=
  match u.getLast? with
  | some c => some c
  | none => p

theorem fixCRLFAux_append (p : Option Char) (u v : List Char) :
    fixCRLFAux p (u ++ v) = fixCRLFAux p u ++ fixCRLFAux (lastCtx p u) v := by
  induction u generalizing p with
  | nil => simp [fixCRLFAux, lastCtx]
  | cons c u ih =>
    have hlast : lastCtx p (c :: u) = lastCtx (some c) u := by
      unfold lastCtx
      cases u with
      | nil => rfl
      | cons d u' =>
        show (match (d :: u').getLast? with
              | some y => some y
              | none => p)
            = (match (d :: u').getLast? with
              | some y => some y
              | none => some c)
        rcases hg : (d :: u').getLast? with _ | x
        · exfalso
          have := List.getLast?_eq_none_iff.mp hg
          simp at this
        · rfl
    by_cases hc : c = '\n' ∧ p ≠ some '\r'
    · obtain ⟨hc1, hc2⟩ := hc
      subst hc1
      rw [List.cons_append, fixCRLFAux, if_pos ⟨rfl, hc2⟩, fixCRLFAux, if_pos ⟨rfl, hc2⟩,
        ih (some '\n'), hlast]
      simp
    · rw [List.cons_append, fixCRLFAux, if_neg hc, fixCRLFAux, if_neg hc,
        ih (some c), hlast]
      simp

theorem fixCRLFAux_ne_nil (p : Option Char) (l : List Char) (h : l ≠ []) :
    fixCRLFAux p l ≠ [] := by
  cases l with
  | nil => exact absurd rfl h
  | cons c rest =>
    by_cases hc : c = '\n' ∧ p ≠ some '\r'
    · rw [fixCRLFAux, if_pos hc]; simp
    · rw [fixCRLFAux, if_neg hc]; simp

theorem fixCRLFAux_getLast (p : Option Char) (l : List Char) (h : l ≠ []) :
    (fixCRLFAux p l).getLast? = l.getLast? := by
  induction l generalizing p with
  | nil => exact absurd rfl h
  | cons c rest ih =>
    cases rest with
    | nil =>
      by_cases hc : c = '\n' ∧ p ≠ some '\r'
      · rw [fixCRLFAux, if_pos hc]
        simp [fixCRLFAux, hc.1]
      · rw [fixCRLFAux, if_neg hc]
        simp [fixCRLFAux]
    | cons d rest' =>
      have hne : fixCRLFAux (some c) (d :: rest') ≠ [] := fixCRLFAux_ne_nil _ _ (by simp)
      have hne2 : fixCRLFAux (some '\n') (d :: rest') ≠ [] := fixCRLFAux_ne_nil _ _ (by simp)
      by_cases hc : c = '\n' ∧ p ≠ some '\r'
      · rw [fixCRLFAux, if_pos hc]
        rw [show ('\r' :: '\n' :: fixCRLFAux (some '\n') (d :: rest'))
            = ['\r', '\n'] ++ fixCRLFAux (some '\n') (d :: rest') from rfl,
          List.getLast?_append_of_ne_nil _ hne2, ih (some '\n') (by simp)]
        rfl
      · rw [fixCRLFAux, if_neg hc]
        rw [show (c :: fixCRLFAux (some c) (d :: rest'))
            = [c] ++ fixCRLFAux (some c) (d :: rest') from rfl,
          List.getLast?_append_of_ne_nil _ hne, ih (some c) (by simp)]
        rfl

/-- A context that is not a pending CR does not affect `fixCRLFAux`. -/
theorem fixCRLFAux_ctx_irrel (p1 p2 : Option Char) (l : List Char)
    (h1 : p1 ≠ some '\r') (h2 : p2 ≠ some '\r') :
    fixCRLFAux p1 l = fixCRLFAux p2 l := by
  cases l with
  | nil => rfl
  | cons c rest =>
    by_cases hc : c = '\n'
    · rw [fixCRLFAux, if_pos ⟨hc, h1⟩, fixCRLFAux, if_pos ⟨hc, h2⟩]
    · have hn1 : ¬(c = '\n' ∧ p1 ≠ some '\r') := fun hx => hc hx.1
      have hn2 : ¬(c = '\n' ∧ p2 ≠ some '\r') := fun hx => hc hx.1
      rw [fixCRLFAux, if_neg hn1, fixCRLFAux, if_neg hn2]

/-- A pending buffer of the simple canonicalizer has no lone LF, so
`fixCRLF` leaves it unchanged, whatever the context. -/
theorem fixCRLFAux_crlfBuf (b : List Char) :
    isCrlfBuf b = true → ∀ p, fixCRLFAux p b = b := by
  induction b using isCrlfBuf.induct with
  | case1 => intro _ _; rfl
  | case2 c =>
    intro hb p
    have hc : c = '\r' := by simpa [isCrlfBuf] using hb
    subst hc
    rw [fixCRLFAux, if_neg (by simp)]
    rfl
  | case3 c1 c2 rest ih =>
    intro hb p
    have hb' : c1 = '\r' ∧ c2 = '\n' ∧ isCrlfBuf rest = true := by
      simpa [isCrlfBuf, Bool.and_assoc] using hb
    obtain ⟨h1, h2, h3⟩ := hb'
    subst h1; subst h2
    rw [fixCRLFAux, if_neg (by simp)]
    rw [fixCRLFAux, if_neg (by simp)]
    rw [ih h3 (some '\n')]

theorem dropPairsRev_decomp (l : List Char) :
    ∃ f, l = f ++ dropPairsRev l ∧ pairsBlocksRev f = true := by
  induction l using dropPairsRev.induct with
  | case1 => exact ⟨[], rfl, rfl⟩
  | case2 c => exact ⟨[], rfl, rfl⟩
  | case3 c1 c2 rest hpair ih =>
    obtain ⟨f, hf, hpf⟩ := ih
    refine ⟨c1 :: c2 :: f, ?_, ?_⟩
    · rw [dropPairsRev, if_pos hpair]
      simpa using hf
    · obtain ⟨h1, h2⟩ := hpair
      subst h1; subst h2
      simpa [pairsBlocksRev] using hpf
  | case4 c1 c2 rest hpair =>
    refine ⟨[], ?_, rfl⟩
    rw [dropPairsRev, if_neg hpair]
    rfl

theorem dropOneCRRev_decomp (l : List Char) :
    ∃ e, l = e ++ dropOneCRRev l ∧ (e = [] ∨ e = ['\r']) := by
  cases l with
  | nil => exact ⟨[], rfl, Or.inl rfl⟩
  | cons c rest =>
    by_cases hc : c = '\r'
    · subst hc
      exact ⟨['\r'], by simp [dropOneCRRev], Or.inr rfl⟩
    · exact ⟨[], by simp [dropOneCRRev, hc], Or.inl rfl⟩

theorem pairsPure_append_pair (u : List Char) (hu : pairsPure u = true) :
    pairsPure (u ++ ['\r', '\n']) = true := by
  induction u using pairsPure.induct with
  | case1 => rfl
  | case2 c => simp [pairsPure] at hu
  | case3 c1 c2 rest ih =>
    have hu' : c1 = '\r' ∧ c2 = '\n' ∧ pairsPure rest = true := by
      simpa [pairsPure, Bool.and_assoc] using hu
    obtain ⟨h1, h2, h3⟩ := hu'
    subst h1; subst h2
    simp only [List.cons_append, pairsPure, Bool.and_eq_true, decide_eq_true_eq]
    exact ⟨by simp, by simpa [Bool.and_eq_true] using ih h3⟩

theorem pairsBlocksRev_reverse (f : List Char) (hf : pairsBlocksRev f = true) :
    pairsPure f.reverse = true := by
  induction f using pairsBlocksRev.induct with
  | case1 => rfl
  | case2 c => simp [pairsBlocksRev] at hf
  | case3 c1 c2 rest ih =>
    have hf' : c1 = '\n' ∧ c2 = '\r' ∧ pairsBlocksRev rest = true := by
      simpa [pairsBlocksRev, Bool.and_assoc] using hf
    obtain ⟨h1, h2, h3⟩ := hf'
    subst h1; subst h2
    have e1 : ('\n' :: '\r' :: rest).reverse = rest.reverse ++ ['\r', '\n'] := by
      simp
    rw [e1]
    exact pairsPure_append_pair rest.reverse (ih h3)

theorem isCrlfBuf_of_append (p opt : List Char) (hp : pairsPure p = true)
    (hopt : opt = [] ∨ opt = ['\r']) : isCrlfBuf (p ++ opt) = true := by
  induction p using pairsPure.induct with
  | case1 =>
    rcases hopt with h | h <;> subst h <;> rfl
  | case2 c => simp [pairsPure] at hp
  | case3 c1 c2 rest ih =>
    have hp' : c1 = '\r' ∧ c2 = '\n' ∧ pairsPure rest = true := by
      simpa [pairsPure, Bool.and_assoc] using hp
    obtain ⟨h1, h2, h3⟩ := hp'
    subst h1; subst h2
    simp only [List.cons_append, isCrlfBuf, Bool.and_eq_true, decide_eq_true_eq]
    refine ⟨by simp, ?_⟩
    have := ih h3
    simpa [Bool.and_eq_true] using this

/-- The pending buffer left by a simple-canonicalizer write is a run of
CRLF pairs followed by at most one CR. -/
theorem stripSplit_buf (x : List Char) : isCrlfBuf (stripSplit x).2 = true := by
  obtain ⟨e, he, hopte⟩ := dropOneCRRev_decomp x.reverse
  obtain ⟨f, hf, hpf⟩ := dropPairsRev_decomp (dropOneCRRev x.reverse)
  set keptRev := dropPairsRev (dropOneCRRev x.reverse) with hk
  have hx : x = keptRev.reverse ++ (e ++ f).reverse := by
    have hxr : x.reverse = (e ++ f) ++ keptRev := by
      rw [List.append_assoc, ← hf, ← he]
    have h2 := congrArg List.reverse hxr
    simpa using h2
  have hbuf : (stripSplit x).2 = (e ++ f).reverse := by
    have h1 : (stripSplit x).2 = x.drop keptRev.length := rfl
    rw [h1, show keptRev.length = keptRev.reverse.length from (List.length_reverse _).symm,
      hx]
    exact List.drop_left _ _
  rw [hbuf, List.reverse_append]
  refine isCrlfBuf_of_append f.reverse e.reverse (pairsBlocksRev_reverse f hpf) ?_
  rcases hopte with h | h <;> subst h
  · left; rfl
  · right; rfl

theorem isCrlfBuf_decomp (b : List Char) (hb : isCrlfBuf b = true) :
    ∃ p opt, b = p ++ opt ∧ pairsPure p = true ∧ (opt = [] ∨ opt = ['\r']) := by
  induction b using isCrlfBuf.induct with
  | case1 => exact ⟨[], [], rfl, rfl, Or.inl rfl⟩
  | case2 c =>
    have hc : c = '\r' := by simpa [isCrlfBuf] using hb
    subst hc
    exact ⟨[], ['\r'], rfl, rfl, Or.inr rfl⟩
  | case3 c1 c2 rest ih =>
    have hb' : c1 = '\r' ∧ c2 = '\n' ∧ isCrlfBuf rest = true := by
      simpa [isCrlfBuf, Bool.and_assoc] using hb
    obtain ⟨h1, h2, h3⟩ := hb'
    subst h1; subst h2
    obtain ⟨p, opt, hbo, hpp, hoo⟩ := ih h3
    refine ⟨'\r' :: '\n' :: p, opt, by simp [hbo], ?_, hoo⟩
    simpa [pairsPure, Bool.and_assoc] using hpp

theorem pairsBlocksRev_append_pair (u : List Char) (hu : pairsBlocksRev u = true) :
    pairsBlocksRev (u ++ ['\n', '\r']) = true := by
  induction u using pairsBlocksRev.induct with
  | case1 => rfl
  | case2 c => simp [pairsBlocksRev] at hu
  | case3 c1 c2 rest ih =>
    have hu' : c1 = '\n' ∧ c2 = '\r' ∧ pairsBlocksRev rest = true := by
      simpa [pairsBlocksRev, Bool.and_assoc] using hu
    obtain ⟨h1, h2, h3⟩ := hu'
    subst h1; subst h2
    simp only [List.cons_append, pairsBlocksRev, Bool.and_eq_true, decide_eq_true_eq]
    exact ⟨by simp, by simpa [Bool.and_eq_true] using ih h3⟩

theorem pairsPure_reverse (p : List Char) (hp : pairsPure p = true) :
    pairsBlocksRev p.reverse = true := by
  induction p using pairsPure.induct with
  | case1 => rfl
  | case2 c => simp [pairsPure] at hp
  | case3 c1 c2 rest ih =>
    have hp' : c1 = '\r' ∧ c2 = '\n' ∧ pairsPure rest = true := by
      simpa [pairsPure, Bool.and_assoc] using hp
    obtain ⟨h1, h2, h3⟩ := hp'
    subst h1; subst h2
    have e1 : ('\r' :: '\n' :: rest).reverse = rest.reverse ++ ['\n', '\r'] := by
      simp
    rw [e1]
    exact pairsBlocksRev_append_pair rest.reverse (ih h3)

theorem dropPairsRev_blocks (u : List Char) (hu : pairsBlocksRev u = true) :
    dropPairsRev u = [] := by
  induction u using pairsBlocksRev.induct with
  | case1 => rfl
  | case2 c => simp [pairsBlocksRev] at hu
  | case3 c1 c2 rest ih =>
    have hu' : c1 = '\n' ∧ c2 = '\r' ∧ pairsBlocksRev rest = true := by
      simpa [pairsBlocksRev, Bool.and_assoc] using hu
    obtain ⟨h1, h2, h3⟩ := hu'
    subst h1; subst h2
    rw [dropPairsRev, if_pos ⟨rfl, rfl⟩]
    exact ih h3

theorem dropOneCRRev_blocks (u : List Char) (hu : pairsBlocksRev u = true) :
    dropOneCRRev u = u := by
  cases u with
  | nil => rfl
  | cons c1 rest =>
    cases rest with
    | nil => simp [pairsBlocksRev] at hu
    | cons c2 rest' =>
      have hu' : c1 = '\n' ∧ c2 = '\r' ∧ pairsBlocksRev rest' = true := by
        simpa [pairsBlocksRev, Bool.and_assoc] using hu
      rw [dropOneCRRev, if_neg (by simp [hu'.1])]

/-- On a buffer that is already a run of CRLF pairs plus at most one CR,
a simple-canonicalizer write keeps everything pending. -/
theorem stripSplit_crlfBuf (b : List Char) (hb : isCrlfBuf b = true) :
    stripSplit b = ([], b) := by
  obtain ⟨p, opt, hbo, hpp, hoo⟩ := isCrlfBuf_decomp b hb
  have hprev : pairsBlocksRev p.reverse = true := pairsPure_reverse p hpp
  have hdrop1 : dropOneCRRev b.reverse = p.reverse := by
    rcases hoo with h | h <;> subst h
    · rw [hbo]
      simpa using dropOneCRRev_blocks p.reverse hprev
    · rw [hbo]
      rw [List.reverse_append]
      rfl
  have hkept : dropPairsRev (dropOneCRRev b.reverse) = [] := by
    rw [hdrop1]
    exact dropPairsRev_blocks p.reverse hprev
  unfold stripSplit
  rw [hkept]
  simp

theorem dropOneCRRev_append (u v : List Char) (hu : u ≠ []) :
    dropOneCRRev (u ++ v) = dropOneCRRev u ++ v := by
  cases u with
  | nil => exact absurd rfl hu
  | cons c u' =>
    by_cases hc : c = '\r'
    · simp [dropOneCRRev, hc]
    · simp [dropOneCRRev, hc]

theorem dropPairsRev_no_pair_head (v : List Char) (hv : ∀ t, v ≠ '\n' :: '\r' :: t) :
    dropPairsRev v = v := by
  cases v with
  | nil => rfl
  | cons c1 rest =>
    cases rest with
    | nil => rfl
    | cons c2 t =>
      have : ¬(c1 = '\n' ∧ c2 = '\r') := by
        rintro ⟨h1, h2⟩
        subst h1; subst h2
        exact hv t rfl
      rw [dropPairsRev, if_neg this]

theorem dropOneCRRev_getLast (l : List Char) (d : Char)
    (h : (dropOneCRRev l).getLast? = some d) : l.getLast? = some d := by
  cases l with
  | nil => simpa [dropOneCRRev] using h
  | cons c rest =>
    by_cases hc : c = '\r'
    · rw [dropOneCRRev, if_pos hc] at h
      have hne : rest ≠ [] := by
        intro hr
        rw [hr] at h
        simp at h
      cases rest with
      | nil => exact absurd rfl hne
      | cons d' rest' => exact h
    · rwa [dropOneCRRev, if_neg hc] at h

theorem dropPairsRev_append (U v : List Char) (hv : ∀ t, v ≠ '\n' :: '\r' :: t)
    (hU : ∀ c, U.getLast? = some c → c ≠ '\n') :
    dropPairsRev (U ++ v) = dropPairsRev U ++ v := by
  induction U using dropPairsRev.induct with
  | case1 => simp [dropPairsRev, dropPairsRev_no_pair_head v hv]
  | case2 c =>
    have hc : c ≠ '\n' := hU c rfl
    cases v with
    | nil => simp [dropPairsRev]
    | cons d t =>
      have hnp : ¬(c = '\n' ∧ d = '\r') := fun hx => hc hx.1
      simp only [List.cons_append, List.nil_append, dropPairsRev, if_neg hnp]
  | case3 c1 c2 rest hpair ih =>
    obtain ⟨h1, h2⟩ := hpair
    subst h1; subst h2
    have hUr : ∀ c, rest.getLast? = some c → c ≠ '\n' := by
      intro c hc
      refine hU c ?_
      have hne : rest ≠ [] := by
        intro hr
        rw [hr] at hc
        simp at hc
      cases rest with
      | nil => exact absurd rfl hne
      | cons d' rest' => exact hc
    simp only [List.cons_append]
    rw [dropPairsRev, if_pos ⟨rfl, rfl⟩, dropPairsRev, if_pos ⟨rfl, rfl⟩]
    exact ih hUr
  | case4 c1 c2 rest hpair =>
    simp only [List.cons_append]
    rw [dropPairsRev, if_neg hpair, dropPairsRev, if_neg hpair]
    simp

/-- Splitting off the already-kept prefix `k1`: stripping `k1 ++ y` keeps
`k1` intact and strips `y` exactly as it would alone. -/
theorem stripSplit_append_keep (k1 y : List Char)
    (hk1 : ∀ c1 c2 t, k1.reverse = c1 :: c2 :: t → ¬(c1 = '\n' ∧ c2 = '\r'))
    (hy : ∀ c t, y = c :: t → c ≠ '\n')
    (hy0 : y = [] → stripSplit k1 = (k1, [])) :
    stripSplit (k1 ++ y) = (k1 ++ (stripSplit y).1, (stripSplit y).2) := by
  cases y with
  | nil =>
    rw [List.append_nil, hy0 rfl]
    simp [stripSplit, dropPairsRev, dropOneCRRev]
  | cons c t =>
    have hcn : c ≠ '\n' := hy c t rfl
    have hvk : ∀ t', k1.reverse ≠ '\n' :: '\r' :: t' := by
      intro t' ht'
      exact hk1 '\n' '\r' t' ht' ⟨rfl, rfl⟩
    have hU : ∀ d, (dropOneCRRev (c :: t).reverse).getLast? = some d → d ≠ '\n' := by
      intro d hd
      have h2 := dropOneCRRev_getLast _ _ hd
      have h3 : ((c :: t).reverse).getLast? = some c := by
        rw [show (c :: t).reverse = t.reverse ++ [c] by simp]
        exact List.getLast?_concat _
      rw [h3] at h2
      injection h2 with h2
      rw [← h2]
      exact hcn
    have hkeptz : dropPairsRev (dropOneCRRev ((k1 ++ (c :: t)).reverse))
        = dropPairsRev (dropOneCRRev (c :: t).reverse) ++ k1.reverse := by
      rw [List.reverse_append]
      rw [dropOneCRRev_append _ _ (by simp)]
      rw [dropPairsRev_append _ _ hvk hU]
    show (_, _) = (_, _)
    unfold stripSplit
    rw [hkeptz]
    refine Prod.ext ?_ ?_
    · show (dropPairsRev (dropOneCRRev (c :: t).reverse) ++ k1.reverse).reverse
        = k1 ++ (dropPairsRev (dropOneCRRev (c :: t).reverse)).reverse
      rw [List.reverse_append, List.reverse_reverse]
    · show (k1 ++ (c :: t)).drop
          (dropPairsRev (dropOneCRRev (c :: t).reverse) ++ k1.reverse).length
        = (c :: t).drop (dropPairsRev (dropOneCRRev (c :: t).reverse)).length
      rw [List.length_append, List.length_reverse, Nat.add_comm]
      exact List.drop_append _

theorem lastCtx_none (u : List Char) : lastCtx none u = u.getLast? := by
  unfold lastCtx
  cases h : u.getLast? <;> rfl

theorem fixCRLF_getLast (l : List Char) : (fixCRLF l).getLast? = l.getLast? := by
  cases l with
  | nil => rfl
  | cons c rest => exact fixCRLFAux_getLast none (c :: rest) (by simp)

theorem dropPairsRev_length_le (l : List Char) : (dropPairsRev l).length ≤ l.length := by
  induction l using dropPairsRev.induct with
  | case1 => simp [dropPairsRev]
  | case2 c => simp [dropPairsRev]
  | case3 c1 c2 rest hpair ih =>
    rw [dropPairsRev, if_pos hpair]
    simp only [List.length_cons]
    omega
  | case4 c1 c2 rest hpair =>
    rw [dropPairsRev, if_neg hpair]

theorem stripSplit_nil_last (x : List Char) (h : (stripSplit x).2 = []) :
    x.getLast? ≠ some '\r' := by
  intro hlast
  have hhead : x.reverse.head? = some '\r' := by
    rw [List.head?_reverse]
    exact hlast
  rcases hxr : x.reverse with _ | ⟨c0, xs⟩
  · rw [hxr] at hhead
    simp at hhead
  · rw [hxr] at hhead
    injection hhead with hc0
    subst hc0
    have hdrop : dropOneCRRev x.reverse = xs := by
      rw [hxr, dropOneCRRev, if_pos rfl]
    have hlen : (dropPairsRev (dropOneCRRev x.reverse)).length ≤ xs.length := by
      rw [hdrop]
      exact dropPairsRev_length_le xs
    have hxlen : x.length = xs.length + 1 := by
      have := congrArg List.length hxr
      simpa using this
    have hbl : (stripSplit x).2.length = x.length
        - (dropPairsRev (dropOneCRRev x.reverse)).length := by
      show (x.drop _).length = _
      rw [List.length_drop]
    rw [h] at hbl
    simp only [List.length_nil] at hbl
    omega

/-- Two successive writes to the simple body canonicalizer emit the same
bytes and leave the same pending buffer as a single write of the
concatenated chunk. -/
theorem simpleWrite_merge (buf a b : List Char) :
    simpleWrite buf (a ++ b)
      = ((simpleWrite buf a).1 ++ (simpleWrite (simpleWrite buf a).2 b).1,
         (simpleWrite (simpleWrite buf a).2 b).2) := by
  rcases hsp : stripSplit (fixCRLF (buf ++ a)) with ⟨k1, s1⟩
  have hwa : simpleWrite buf a = (k1, s1) := hsp
  have hxdec : fixCRLF (buf ++ a) = k1 ++ s1 := by
    have := stripSplit_eq (fixCRLF (buf ++ a))
    rw [hsp] at this
    exact this
  have hs1buf : isCrlfBuf s1 = true := by
    have := stripSplit_buf (fixCRLF (buf ++ a))
    rw [hsp] at this
    exact this
  -- Step 1: the fixed stream of the merged write splits as k1 ++ y
  have hctx : fixCRLFAux (lastCtx none (buf ++ a)) b
      = fixCRLFAux (lastCtx none s1) b := by
    rw [lastCtx_none, lastCtx_none]
    have hfix : (buf ++ a).getLast? = (fixCRLF (buf ++ a)).getLast? :=
      (fixCRLF_getLast _).symm
    cases hs1 : s1 with
    | nil =>
      have hnr : (fixCRLF (buf ++ a)).getLast? ≠ some '\r' := by
        refine stripSplit_nil_last _ ?_
        rw [hsp, hs1]
      refine fixCRLFAux_ctx_irrel _ _ b ?_ (by simp)
      rw [hfix]
      exact hnr
    | cons c0 s1' =>
      have hxl : (fixCRLF (buf ++ a)).getLast? = s1.getLast? := by
        rw [hxdec, hs1]
        exact List.getLast?_append_of_ne_nil _ (by simp)
      rw [hfix, hxl, hs1]
  have hstep1 : fixCRLF (buf ++ (a ++ b)) = k1 ++ fixCRLF (s1 ++ b) := by
    show fixCRLFAux none (buf ++ (a ++ b)) = k1 ++ fixCRLFAux none (s1 ++ b)
    rw [← List.append_assoc, fixCRLFAux_append none (buf ++ a) b,
      fixCRLFAux_append none s1 b, fixCRLFAux_crlfBuf s1 hs1buf none]
    show fixCRLF (buf ++ a) ++ _ = _
    rw [hxdec, hctx, List.append_assoc]
  -- Step 2: stripping k1 ++ y keeps k1 and strips y alone
  have hk1rev : k1.reverse = dropPairsRev (dropOneCRRev (fixCRLF (buf ++ a)).reverse) := by
    have h1 : k1
        = (dropPairsRev (dropOneCRRev (fixCRLF (buf ++ a)).reverse)).reverse := by
      have h0 : (stripSplit (fixCRLF (buf ++ a))).1
          = (dropPairsRev (dropOneCRRev (fixCRLF (buf ++ a)).reverse)).reverse := rfl
      rw [hsp] at h0
      exact h0
    rw [h1, List.reverse_reverse]
  have hk1 : ∀ c1 c2 t, k1.reverse = c1 :: c2 :: t → ¬(c1 = '\n' ∧ c2 = '\r') := by
    intro c1 c2 t ht
    rw [hk1rev] at ht
    exact dropPairsRev_not_pair _ c1 c2 t ht
  have hy : ∀ c t, fixCRLF (s1 ++ b) = c :: t → c ≠ '\n' := by
    intro c t ht
    exact fixCRLFAux_head_ne_lf none _ c t ht (by simp)
  have hy0 : fixCRLF (s1 ++ b) = [] → stripSplit k1 = (k1, []) := by
    intro hynil
    have hsb : s1 ++ b = [] := by
      by_contra hne
      exact fixCRLFAux_ne_nil none _ hne hynil
    have hs1 : s1 = [] := by
      rcases List.append_eq_nil.mp hsb with ⟨h1, _⟩
      exact h1
    have hfk : fixCRLF (buf ++ a) = k1 := by
      rw [hxdec, hs1, List.append_nil]
    calc stripSplit k1 = stripSplit (fixCRLF (buf ++ a)) := by rw [hfk]
      _ = (k1, s1) := hsp
      _ = (k1, []) := by rw [hs1]
  have hstep2 := stripSplit_append_keep k1 (fixCRLF (s1 ++ b)) hk1 hy hy0
  show stripSplit (fixCRLF (buf ++ (a ++ b))) = _
  rw [hstep1, hstep2, hwa]
  rfl

/-- A run of simple-canonicalizer writes is equivalent to one write of the
concatenated bytes. -/
theorem simpleWrites_flatten (chunks : List (List Char)) (buf : List Char)
    (hbuf : isCrlfBuf buf = true) :
    simpleWrites buf chunks = simpleWrite buf chunks.flatten := by
  induction chunks generalizing buf with
  | nil =>
    show ([], buf) = simpleWrite buf []
    unfold simpleWrite
    rw [List.append_nil]
    show ([], buf) = stripSplit (fixCRLFAux none buf)
    rw [fixCRLFAux_crlfBuf buf hbuf none, stripSplit_crlfBuf buf hbuf]
  | cons c cs ih =>
    rcases hw : simpleWrite buf c with ⟨e, s1⟩
    have hs1 : isCrlfBuf s1 = true := by
      have hsb := stripSplit_buf (fixCRLF (buf ++ c))
      rw [show stripSplit (fixCRLF (buf ++ c)) = simpleWrite buf c from rfl, hw] at hsb
      exact hsb
    rcases hws : simpleWrites s1 cs with ⟨es, s2⟩
    have hmerge := simpleWrite_merge buf c cs.flatten
    rw [hw] at hmerge
    have hih := ih s1 hs1
    rw [hws] at hih
    simp only [simpleWrites, hw, hws, List.flatten_cons, hmerge]
    rw [← hih]

/-- Claim C7 helper: the simple body canonicalizer is insensitive to chunk
boundaries. -/
theorem simpleBodyOutput_flatten (chunks : List (List Char)) :
    simpleBodyOutput chunks = simpleBodyOutput [chunks.flatten] := by
  unfold simpleBodyOutput
  rw [simpleWrites_flatten chunks [] rfl]
  show _ = (let r := simpleWrites [] [chunks.flatten]; r.1 ++ simpleClose r.2)
  have h1 : simpleWrites [] [chunks.flatten]
      = ((simpleWrite [] chunks.flatten).1 ++ [],
         (simpleWrite [] chunks.flatten).2) := by
    rcases hw : simpleWrite [] chunks.flatten with ⟨e, s⟩
    simp only [simpleWrites, hw]
  rw [h1]
  simp

theorem lastCtx_ne_nil (p : Option Char) (c : List Char) (h : c ≠ []) :
    lastCtx p c = c.getLast? := by
  unfold lastCtx
  rcases hg : c.getLast? with _ | x
  · exact absurd (List.getLast?_eq_none_iff.mp hg) h
  · rfl

theorem fixCRLFAux_ctx_head (p1 p2 : Option Char) (l : List Char)
    (h : ∀ c t, l = c :: t → c = '\n' → ((p1 = some '\r') ↔ (p2 = some '\r'))) :
    fixCRLFAux p1 l = fixCRLFAux p2 l := by
  cases l with
  | nil => rfl
  | cons c t =>
    by_cases hc : c = '\n'
    · subst hc
      by_cases hp1 : p1 = some '\r'
      · have hp2 : p2 = some '\r' := (h _ _ rfl rfl).mp hp1
        rw [fixCRLFAux, if_neg (by simp [hp1]), fixCRLFAux, if_neg (by simp [hp2])]
      · have hp2 : p2 ≠ some '\r' := fun hx => hp1 ((h _ _ rfl rfl).mpr hx)
        rw [fixCRLFAux, if_pos ⟨rfl, hp1⟩, fixCRLFAux, if_pos ⟨rfl, hp2⟩]
    · rw [fixCRLFAux, if_neg (fun hx => hc hx.1), fixCRLFAux, if_neg (fun hx => hc hx.1)]

/-- When no chunk boundary splits a CRLF pair, fixing lone LFs per chunk
agrees with fixing them on the whole stream. -/
theorem fixCRLF_chunks (cs : List (List Char)) :
    ∀ p, noSplitCRLF p cs = true →
    fixCRLFAux p cs.flatten = (cs.map fixCRLF).flatten := by
  induction cs with
  | nil => intro p _; rfl
  | cons c cs ih =>
    intro p hn
    rw [List.flatten_cons, fixCRLFAux_append p c cs.flatten, List.map_cons,
      List.flatten_cons]
    cases c with
    | nil =>
      have hn' : noSplitCRLF p cs = true := by
        simpa [noSplitCRLF] using hn
      simp only [fixCRLFAux, List.nil_append, lastCtx]
      exact ih p hn'
    | cons d t =>
      have hn1 : ¬(d = '\n' ∧ p = some '\r') := by
        have := hn
        simp only [noSplitCRLF, Bool.and_eq_true] at this
        intro ⟨h1, h2⟩
        subst h1
        rw [h2] at this
        simpa using this.1
      have hn2 : noSplitCRLF (d :: t).getLast? cs = true := by
        have := hn
        simp only [noSplitCRLF, Bool.and_eq_true] at this
        exact this.2
      have hctx : fixCRLFAux p (d :: t) = fixCRLF (d :: t) := by
        refine fixCRLFAux_ctx_head p none _ ?_
        intro c0 t0 heq h0
        injection heq with he1 _
        subst he1
        subst h0
        constructor
        · intro hp
          exact absurd ⟨rfl, hp⟩ hn1
        · intro hx
          exact absurd hx (by simp)
      rw [hctx, lastCtx_ne_nil p _ (by simp)]
      rw [ih _ hn2]

/-- Character-level composition: the relaxed character loop over `u ++ v`
is the loop over `u` followed by the loop over `v` from the reached
state. -/
theorem relaxedChars_append (u v cb wb : List Char) :
    relaxedChars cb wb (u ++ v)
      = ((relaxedChars cb wb u).1
           ++ (relaxedChars (relaxedChars cb wb u).2.1 (relaxedChars cb wb u).2.2 v).1,
         (relaxedChars (relaxedChars cb wb u).2.1 (relaxedChars cb wb u).2.2 v).2) := by
  induction u generalizing cb wb with
  | nil => simp [relaxedChars]
  | cons ch u' ih =>
    by_cases hws : ch = ' ' ∨ ch = '\t'
    · rw [List.cons_append, relaxedChars, if_pos hws, relaxedChars, if_pos hws]
      exact ih cb (wb ++ [ch])
    · by_cases hcr : ch = '\r' ∨ ch = '\n'
      · rw [List.cons_append, relaxedChars, if_neg hws, if_pos hcr,
          relaxedChars, if_neg hws, if_pos hcr]
        exact ih (cb ++ [ch]) []
      · rw [List.cons_append, relaxedChars, if_neg hws, if_neg hcr,
          relaxedChars, if_neg hws, if_neg hcr]
        rw [ih [] []]
        simp

theorem relaxedWrite_eq (st : RelaxedState) (chunk : List Char) :
    relaxedWrite st chunk
      = ((relaxedChars st.crlfBuf st.wspBuf (fixCRLF chunk)).1,
         ⟨(relaxedChars st.crlfBuf st.wspBuf (fixCRLF chunk)).2.1,
          (relaxedChars st.crlfBuf st.wspBuf (fixCRLF chunk)).2.2,
          st.written || !(relaxedChars st.crlfBuf st.wspBuf (fixCRLF chunk)).1.isEmpty⟩) := by
  unfold relaxedWrite
  rcases relaxedChars st.crlfBuf st.wspBuf (fixCRLF chunk) with ⟨o, cb, wb⟩
  rfl

theorem relaxedWrites_cons (st : RelaxedState) (c : List Char) (cs : List (List Char)) :
    relaxedWrites st (c :: cs)
      = ((relaxedWrite st c).1 ++ (relaxedWrites (relaxedWrite st c).2 cs).1,
         (relaxedWrites (relaxedWrite st c).2 cs).2) := by
  rcases hw : relaxedWrite st c with ⟨e, st1⟩
  have hbr : relaxedWrites ((e, st1) : List Char × RelaxedState).2 cs
      = relaxedWrites st1 cs := rfl
  rcases hws : relaxedWrites st1 cs with ⟨es, st2⟩
  have hbr2 := hbr.trans hws
  simp only [relaxedWrites, hw, hbr2, hws]

/-- The relaxed canonicalizer's emitted bytes and buffers are those of the
character loop over the concatenation of the per-chunk `fixCRLF`
streams. -/
theorem relaxedWrites_stream (cs : List (List Char)) (st : RelaxedState) :
    (relaxedWrites st cs).1
        = (relaxedChars st.crlfBuf st.wspBuf (cs.map fixCRLF).flatten).1 ∧
    ((relaxedWrites st cs).2).crlfBuf
        = (relaxedChars st.crlfBuf st.wspBuf (cs.map fixCRLF).flatten).2.1 ∧
    ((relaxedWrites st cs).2).wspBuf
        = (relaxedChars st.crlfBuf st.wspBuf (cs.map fixCRLF).flatten).2.2 := by
  induction cs generalizing st with
  | nil => exact ⟨rfl, rfl, rfl⟩
  | cons c cs ih =>
    rw [relaxedWrites_cons, List.map_cons, List.flatten_cons, relaxedChars_append]
    obtain ⟨ih1, ih2, ih3⟩ := ih (relaxedWrite st c).2
    have hw := relaxedWrite_eq st c
    have hcb : ((relaxedWrite st c).2).crlfBuf
        = (relaxedChars st.crlfBuf st.wspBuf (fixCRLF c)).2.1 := by rw [hw]
    have hwb : ((relaxedWrite st c).2).wspBuf
        = (relaxedChars st.crlfBuf st.wspBuf (fixCRLF c)).2.2 := by rw [hw]
    have he : (relaxedWrite st c).1
        = (relaxedChars st.crlfBuf st.wspBuf (fixCRLF c)).1 := by rw [hw]
    rw [hcb, hwb] at ih1 ih2 ih3
    exact ⟨by rw [he, ih1], by rw [ih2], by rw [ih3]⟩

/-- Claim C7 helper: when no chunk boundary splits a CRLF pair, the
relaxed body canonicalizer is insensitive to the partition. -/
theorem relaxedBodyOutput_flatten (chunks : List (List Char))
    (hsplit : noSplitCRLF none chunks = true) :
    relaxedBodyOutput chunks = relaxedBodyOutput [chunks.flatten] := by
  have h1 := (relaxedWrites_stream chunks ⟨[], [], false⟩).1
  have h2 := (relaxedWrites_stream [chunks.flatten] ⟨[], [], false⟩).1
  have hw1 := relaxedWrites_written ⟨[], [], false⟩ chunks
  have hw2 := relaxedWrites_written ⟨[], [], false⟩ [chunks.flatten]
  have hfix : (chunks.map fixCRLF).flatten = fixCRLF chunks.flatten :=
    (fixCRLF_chunks chunks none hsplit).symm
  have hfix2 : (([chunks.flatten]).map fixCRLF).flatten = fixCRLF chunks.flatten := by
    simp
  rcases hA : relaxedWrites ⟨[], [], false⟩ chunks with ⟨O1, stA⟩
  rcases hB : relaxedWrites ⟨[], [], false⟩ [chunks.flatten] with ⟨O2, stB⟩
  rw [hA] at h1 hw1
  rw [hB] at h2 hw2
  have hO : O1 = O2 := by
    have e1 : O1 = (relaxedChars [] [] (fixCRLF chunks.flatten)).1 := by
      rw [show (O1, stA).1 = O1 from rfl] at h1
      rw [h1]
      rw [show RelaxedState.crlfBuf ⟨[], [], false⟩ = [] from rfl,
        show RelaxedState.wspBuf ⟨[], [], false⟩ = [] from rfl, hfix]
    have e2 : O2 = (relaxedChars [] [] (fixCRLF chunks.flatten)).1 := by
      rw [show (O2, stB).1 = O2 from rfl] at h2
      rw [h2]
      rw [show RelaxedState.crlfBuf ⟨[], [], false⟩ = [] from rfl,
        show RelaxedState.wspBuf ⟨[], [], false⟩ = [] from rfl, hfix2]
    rw [e1, e2]
  have hwrA : stA.written = !O1.isEmpty := hw1
  have hwrB : stB.written = !O2.isEmpty := hw2
  unfold relaxedBodyOutput
  rw [hA, hB]
  show O1 ++ relaxedClose stA = O2 ++ relaxedClose stB
  unfold relaxedClose
  rw [hwrA, hwrB, hO]

/-- Claim C7 (amended): the simple body canonicalizer is insensitive to
chunk boundaries for every partition of the byte sequence; the relaxed
body canonicalizer is insensitive for every partition in which no chunk
begins with an LF continuing a CR that ended the preceding bytes (the Go
code applies `fixCRLF` to each chunk in isolation, so a CRLF pair split
across a relaxed-write boundary is not recognised). -/
theorem claimC7_chunkInsensitivity (chunks : List (List Char)) :
    simpleBodyOutput chunks = simpleBodyOutput [chunks.flatten] ∧
    (noSplitCRLF none chunks = true →
      relaxedBodyOutput chunks = relaxedBodyOutput [chunks.flatten]) :=
  ⟨simpleBodyOutput_flatten chunks, relaxedBodyOutput_flatten chunks⟩

theorem claimC7_chunkInsensitivity_witness :
    noSplitCRLF none ["a\r\n".toList, "b".toList] = true ∧
    simpleBodyOutput ["a\r\n".toList, "b".toList]
      = simpleBodyOutput [["a\r\n".toList, "b".toList].flatten] ∧
    relaxedBodyOutput ["a\r\n".toList, "b".toList]
      = relaxedBodyOutput [["a\r\n".toList, "b".toList].flatten] :=
  ⟨by decide, (claimC7_chunkInsensitivity ["a\r\n".toList, "b".toList]).1,
   (claimC7_chunkInsensitivity ["a\r\n".toList, "b".toList]).2 (by decide)⟩

/-- Claim C7 (counterexample): the relaxed body canonicalizer is NOT
insensitive to chunk boundaries: writing `"x\r"` then `"\ny"` emits
`"x\r\r\ny\r\n"`, while the single write `"x\r\ny"` emits `"x\r\ny\r\n"` —
the CR ending the first chunk and the LF starting the second are not
treated as one CRLF. -/
theorem claimC7_counterexample :
    relaxedBodyOutput ["x\r".toList, "\ny".toList] = "x\r\r\ny\r\n".toList ∧
    relaxedBodyOutput [("x\r".toList ++ "\ny".toList)] = "x\r\ny\r\n".toList ∧
    relaxedBodyOutput ["x\r".toList, "\ny".toList]
      ≠ relaxedBodyOutput [["x\r".toList, "\ny".toList].flatten] := by
  refine ⟨by decide, by decide, by decide⟩

/-! ## Claim C1: format/parse round trip -/

theorem splitOnChar_ne_nil (sep : Char) (l : List Char) : splitOnChar sep l ≠ [] := by
  cases l with
  | nil => simp [splitOnChar]
  | cons c rest =>
    by_cases hc : c = sep
    · simp [splitOnChar, hc]
    · rw [splitOnChar, if_neg hc]
      rcases hsp : splitOnChar sep rest with _ | ⟨p, ps⟩
      · simp
      · simp

theorem splitOnChar_sep_append (sep : Char) (seg rest : List Char) (hno : sep ∉ seg) :
    splitOnChar sep (seg ++ sep :: rest) = seg :: splitOnChar sep rest := by
  induction seg with
  | nil => simp [splitOnChar]
  | cons c seg' ih =>
    have hc : c ≠ sep := by
      intro h
      exact hno (by simp [h])
    have ih2 := ih (fun h => hno (by simp [h]))
    rw [List.cons_append, splitOnChar, if_neg hc, ih2]

theorem splitN2_first (sep : Char) (a b : List Char) (ha : sep ∉ a) :
    splitN2 sep (a ++ sep :: b) = [a, b] := by
  induction a with
  | nil => simp [splitN2]
  | cons c a' ih =>
    have hc : c ≠ sep := by
      intro h
      exact ha (by simp [h])
    have ih2 := ih (fun h => ha (by simp [h]))
    rw [List.cons_append, splitN2, if_neg hc, ih2]

theorem dropWhile_of_head (p : Char → Bool) (l : List Char)
    (h : ∀ hd, l.head? = some hd → p hd = false) : l.dropWhile p = l := by
  cases l with
  | nil => rfl
  | cons c rest =>
    have hc : p c = false := h c rfl
    simp [List.dropWhile_cons, hc]

theorem dropWhile_all_append (p : Char → Bool) (w l : List Char)
    (hw : ∀ c ∈ w, p c = true) : (w ++ l).dropWhile p = l.dropWhile p := by
  induction w with
  | nil => rfl
  | cons c w' ih =>
    have hc : p c = true := hw c (by simp)
    rw [List.cons_append, List.dropWhile_cons, hc]
    simp only [if_pos rfl]
    exact ih fun d hd => hw d (by simp [hd])

/-- Keys and values without surrounding whitespace survive `goTrimSpace`,
also under a whitespace prefix. -/
theorem goTrimSpace_ws_append (w k : List Char)
    (hw : ∀ c ∈ w, goIsSpace c = true)
    (hh : ∀ hd, k.head? = some hd → goIsSpace hd = false)
    (hl : ∀ la, k.getLast? = some la → goIsSpace la = false) :
    goTrimSpace (w ++ k) = k := by
  unfold goTrimSpace
  rw [dropWhile_all_append _ _ _ hw, dropWhile_of_head _ _ hh]
  rw [dropWhile_of_head]
  · simp
  · intro hd hhd
    rw [List.head?_reverse] at hhd
    exact hl hd hhd

theorem option_all_false (p : Char → Bool) (o : Option Char)
    (h : o.all (fun c => !p c) = true) :
    ∀ c, o = some c → p c = false := by
  intro c hc
  rw [hc] at h
  simpa using h

theorem parseGo_clean_step (w k v : List Char) (acc : List (List Char × List Char))
    (segs : List (List Char))
    (hw : ∀ c ∈ w, goIsSpace c = true) (hweq : '=' ∉ w)
    (hk : cleanPair k v = true) :
    parseHeaderParamsGo acc ((w ++ k ++ '=' :: v) :: segs)
      = parseHeaderParamsGo (mapInsert k v acc) segs := by
  simp only [cleanPair, Bool.and_eq_true, decide_eq_true_eq] at hk
  obtain ⟨⟨⟨⟨⟨⟨⟨hkhB, hklB⟩, hvhB⟩, hvlB⟩, _⟩, _⟩, hkeq⟩, _⟩ := hk
  have hkh := option_all_false goIsSpace k.head? hkhB
  have hkl := option_all_false goIsSpace k.getLast? hklB
  have hvh := option_all_false goIsSpace v.head? hvhB
  have hvl := option_all_false goIsSpace v.getLast? hvlB
  have hnoeq : '=' ∉ w ++ k := by
    intro hx
    rcases List.mem_append.mp hx with hx | hx
    · exact hweq hx
    · exact hkeq hx
  have hsp : splitN2 '=' ((w ++ k) ++ '=' :: v) = [w ++ k, v] :=
    splitN2_first '=' (w ++ k) v hnoeq
  rw [parseHeaderParamsGo, hsp]
  show parseHeaderParamsGo (mapInsert (goTrimSpace (w ++ k)) (goTrimSpace v) acc) segs = _
  have hv : goTrimSpace v = v := by
    have := goTrimSpace_ws_append [] v (by simp) hvh hvl
    simpa using this
  rw [goTrimSpace_ws_append w k hw hkh hkl, hv]

/-- One step of the `formatHeaderParams` emission loop under the fit
condition: the tag is emitted in full on the current or next line,
preceded only by whitespace, and the loop continues with a new budget. -/
theorem formatParamsGo_cons (m : List (List Char × List Char)) (avail : Int)
    (k : List Char) (rest : List (List Char))
    (hfit : k.length + ((mapLookup k m).getD []).length + 3 ≤ 75) :
    ∃ (w : List Char) (avail1 : Int),
      (∀ c ∈ w, goIsSpace c = true) ∧ ';' ∉ w ∧ '=' ∉ w ∧
      formatParamsGo m avail (k :: rest)
        = (w ++ k ++ '=' :: ((mapLookup k m).getD []))
            ++ ';' :: formatParamsGo m avail1 rest := by
  have hchars : (k.length : Int) + ((mapLookup k m).getD []).length + 3 ≤ 75 := by
    exact_mod_cast hfit
  by_cases hreset : (avail < (k.length : Int) + ((mapLookup k m).getD []).length + 3
      || k = ['b']) = true
  · refine ⟨crlfL ++ [' '], 75 - ((k.length : Int) + ((mapLookup k m).getD []).length + 3),
      by decide, by decide, by decide, ?_⟩
    · rw [formatParamsGo]
      simp only [if_pos hreset]
      have hnn : ¬((75 : Int) - ((k.length : Int)
          + ((mapLookup k m).getD []).length + 3) < 0) := by omega
      rw [if_neg hnn]
      simp [crlfL]
  · have havail : (k.length : Int) + ((mapLookup k m).getD []).length + 3 ≤ avail := by
      simp only [Bool.or_eq_true, decide_eq_true_eq, not_or] at hreset
      omega
    refine ⟨[' '], avail - ((k.length : Int) + ((mapLookup k m).getD []).length + 3),
      ?_, by simp, by simp, ?_⟩
    · intro c hc
      simp at hc
      subst hc
      rfl
    · rw [formatParamsGo]
      simp only [if_neg hreset]
      have hnn : ¬(avail - ((k.length : Int)
          + ((mapLookup k m).getD []).length + 3) < 0) := by omega
      rw [if_neg hnn]
      simp

theorem mapInsert_lookup (k v q : List Char) (l : List (List Char × List Char)) :
    mapLookup q (mapInsert k v l) = if k = q then some v else mapLookup q l := by
  induction l with
  | nil => simp [mapInsert, mapLookup]
  | cons p rest ih =>
    rcases p with ⟨k', v'⟩
    rw [mapInsert]
    by_cases hk : k' = k
    · rw [if_pos hk]
      subst hk
      by_cases hq : k' = q <;> simp [mapLookup, hq]
    · rw [if_neg hk]
      by_cases hq : k' = q
      · subst hq
        have hkq : ¬(k = k') := fun h => hk h.symm
        simp [mapLookup, hkq]
      · simp [mapLookup, hq, ih]

theorem foldl_insert_lookup (m : List (List Char × List Char)) (ks : List (List Char))
    (acc : List (List Char × List Char)) (q : List Char) :
    mapLookup q (ks.foldl (fun a k => mapInsert k ((mapLookup k m).getD []) a) acc)
      = if q ∈ ks then some ((mapLookup q m).getD []) else mapLookup q acc := by
  induction ks generalizing acc with
  | nil => simp
  | cons k rest ih =>
    rw [List.foldl_cons, ih]
    by_cases hq : q ∈ rest
    · rw [if_pos hq, if_pos (by simp [hq])]
    · rw [if_neg hq, mapInsert_lookup]
      by_cases hk : k = q
      · subst hk
        rw [if_pos rfl, if_pos (by simp)]
      · rw [if_neg hk, if_neg ?_]
        simp only [List.mem_cons, not_or]
        exact ⟨fun h => hk h.symm, hq⟩

theorem mem_insertLe {α : Type} (le : α → α → Bool) (x y : α) (l : List α) :
    y ∈ insertLe le x l ↔ y = x ∨ y ∈ l := by
  induction l with
  | nil => simp [insertLe]
  | cons z zs ih =>
    rw [insertLe]
    by_cases h : le x z = true
    · simp [h]
    · rw [if_neg h]
      rw [List.mem_cons, ih, List.mem_cons]
      tauto

theorem mem_sortByLe {α : Type} (le : α → α → Bool) (x : α) (l : List α) :
    x ∈ sortByLe le l ↔ x ∈ l := by
  induction l with
  | nil => simp [sortByLe]
  | cons y ys ih =>
    rw [sortByLe, mem_insertLe]
    simp [ih]

theorem mapLookup_mem (k v : List Char) (m : List (List Char × List Char))
    (h : mapLookup k m = some v) : (k, v) ∈ m := by
  induction m with
  | nil => simp [mapLookup] at h
  | cons p rest ih =>
    rcases p with ⟨k', v'⟩
    rw [mapLookup] at h
    by_cases hk : k' = k
    · rw [if_pos hk] at h
      injection h with h
      subst hk
      subst h
      simp
    · rw [if_neg hk] at h
      exact List.mem_cons_of_mem _ (ih h)

theorem mapLookup_isSome_of_mem (k : List Char) (m : List (List Char × List Char))
    (h : k ∈ m.map Prod.fst) : ∃ v, mapLookup k m = some v := by
  induction m with
  | nil => simp at h
  | cons p rest ih =>
    rcases p with ⟨k', v'⟩
    by_cases hk : k' = k
    · exact ⟨v', by rw [mapLookup, if_pos hk]⟩
    · have hmem : k ∈ rest.map Prod.fst := by
        simp only [List.map_cons, List.mem_cons] at h
        rcases h with h | h
        · exact absurd h.symm hk
        · exact h
      obtain ⟨v, hv⟩ := ih hmem
      exact ⟨v, by rw [mapLookup, if_neg hk]; exact hv⟩

theorem mapLookup_eq_none (k : List Char) (m : List (List Char × List Char))
    (h : k ∉ m.map Prod.fst) : mapLookup k m = none := by
  induction m with
  | nil => rfl
  | cons p rest ih =>
    rcases p with ⟨k', v'⟩
    simp only [List.map_cons, List.mem_cons, not_or] at h
    rw [mapLookup, if_neg (fun he => h.1 he.symm)]
    exact ih h.2

/-- Parsing the output of the `formatParamsGo` emission loop over keys whose
pairs are all `cleanPair` inserts each key's value into the accumulator in
emission order. -/
theorem parse_format_go (m : List (List Char × List Char)) (ks : List (List Char))
    (hclean : ∀ k ∈ ks, cleanPair k ((mapLookup k m).getD []) = true) :
    ∀ (avail : Int) (acc : List (List Char × List Char)),
    parseHeaderParamsGo acc (splitOnChar ';' (formatParamsGo m avail ks))
      = .ok (ks.foldl (fun a k => mapInsert k ((mapLookup k m).getD []) a) acc) := by
  induction ks with
  | nil =>
    intro avail acc
    rfl
  | cons k rest ih =>
    intro avail acc
    have hk := hclean k (by simp)
    have hk2 := hk
    simp only [cleanPair, Bool.and_eq_true, decide_eq_true_eq] at hk2
    obtain ⟨⟨⟨⟨⟨⟨⟨_, _⟩, _⟩, _⟩, hksemi⟩, hvsemi⟩, _⟩, hfit⟩ := hk2
    obtain ⟨w, avail1, hw, hwsemi, hweq, heq⟩ := formatParamsGo_cons m avail k rest hfit
    rw [heq]
    have hsemi : ';' ∉ w ++ k ++ '=' :: ((mapLookup k m).getD []) := by
      intro hx
      rcases List.mem_append.mp hx with hx | hx
      · rcases List.mem_append.mp hx with hx | hx
        · exact hwsemi hx
        · exact hksemi hx
      · rcases List.mem_cons.mp hx with hx | hx
        · exact absurd hx (by decide)
        · exact hvsemi hx
    rw [splitOnChar_sep_append ';' _ _ hsemi]
    rw [parseGo_clean_step w k _ acc _ hw hweq hk]
    exact ih (fun k' hk' => hclean k' (by simp [hk'])) avail1
      (mapInsert k ((mapLookup k m).getD []) acc)

/-- Parsing the formatted emission over any key enumeration of `m` (all
pairs clean) gives a map extensionally equal to `m`. -/
theorem parse_format_lookup (m : List (List Char × List Char))
    (keys : List (List Char)) (avail : Int)
    (hcl : ∀ k ∈ keys, cleanPair k ((mapLookup k m).getD []) = true)
    (hmem : ∀ q, q ∈ keys ↔ q ∈ m.map Prod.fst) :
    ∃ m', parseHeaderParamsGo [] (splitOnChar ';' (formatParamsGo m avail keys))
        = Except.ok m' ∧ ∀ q, mapLookup q m' = mapLookup q m := by
  refine ⟨_, parse_format_go m keys hcl avail [], ?_⟩
  intro q
  rw [foldl_insert_lookup]
  by_cases hq : q ∈ keys
  · rw [if_pos hq]
    obtain ⟨v, hv⟩ := mapLookup_isSome_of_mem q m ((hmem q).mp hq)
    rw [hv]
    rfl
  · rw [if_neg hq]
    have hnone : q ∉ m.map Prod.fst := fun h => hq ((hmem q).mpr h)
    rw [mapLookup_eq_none q m hnone]
    rfl

/-- The key sequence emitted by `formatHeaderParams` (sorted non-`b` keys,
then `b` if present) enumerates exactly the keys of the map. -/
theorem formatKeys_mem (m : List (List Char × List Char)) (q : List Char) :
    q ∈ (if decide (['b'] ∈ m.map (·.1)) = true
        then sortByLe (keyLe m) ((m.map (·.1)).filter (· ≠ ['b'])) ++ [['b']]
        else sortByLe (keyLe m) ((m.map (·.1)).filter (· ≠ ['b'])))
      ↔ q ∈ m.map Prod.fst := by
  by_cases hb : ['b'] ∈ m.map (·.1)
  · rw [if_pos (by simpa using hb)]
    rw [List.mem_append, mem_sortByLe, List.mem_filter]
    constructor
    · rintro (⟨h1, _⟩ | h2)
      · exact h1
      · have hq : q = ['b'] := by simpa using h2
        rw [hq]
        exact hb
    · intro hq
      by_cases hqb : q = ['b']
      · right
        simp [hqb]
      · left
        refine ⟨hq, ?_⟩
        simpa using hqb
  · rw [if_neg (by simpa using hb)]
    rw [mem_sortByLe, List.mem_filter]
    constructor
    · exact fun h => h.1
    · intro hq
      refine ⟨hq, ?_⟩
      have hqb : q ≠ ['b'] := by
        intro he
        rw [he] at hq
        exact hb hq
      simpa using hqb

/-- Claim C1 (corrected): the format/parse round trip holds for every tag
map whose pairs are all `cleanPair` — names and values free of surrounding
whitespace, of `';'`, of `'='` in the name, and short enough
(`len k + len v + 3 ≤ 75`) that the 75-byte folding path of
`formatParamsGo` is never taken: `parseHeaderParams` on
`formatHeaderParams m` succeeds with a map extensionally equal to `m`.
The unconditional claim is false: an oversized value is folded with a
`"\r\n "` inserted mid-value, which parsing does not undo (see the
counterexample). -/
theorem claimC1_formatParseRoundTrip (m : List (List Char × List Char))
    (hclean : ∀ p ∈ m, cleanPair p.1 p.2 = true) :
    ∃ m', parseHeaderParams (formatHeaderParams m) = Except.ok m' ∧
      ∀ q, mapLookup q m' = mapLookup q m := by
  have hform : parseHeaderParams (formatHeaderParams m)
      = parseHeaderParamsGo [] (splitOnChar ';' (formatParamsGo m
          (75 - (headerFieldName.length : Int) - 2)
          (if decide (['b'] ∈ m.map (·.1)) = true
           then sortByLe (keyLe m) ((m.map (·.1)).filter (· ≠ ['b'])) ++ [['b']]
           else sortByLe (keyLe m) ((m.map (·.1)).filter (· ≠ ['b']))))) := rfl
  rw [hform]
  refine parse_format_lookup m _ _ ?_ (formatKeys_mem m)
  intro k hk
  have hmemk : k ∈ m.map Prod.fst := (formatKeys_mem m k).mp hk
  obtain ⟨v, hv⟩ := mapLookup_isSome_of_mem k m hmemk
  have hpair := mapLookup_mem k v m hv
  have hcp := hclean (k, v) hpair
  rw [hv]
  simpa using hcp

/-- Claim C1 counterexample: on the one-pair map `k ↦ "a"*80` the
formatter folds the oversized tag across the 75-byte boundary, inserting
`"\r\n "` inside the value; the parser keeps that infix, so the round
trip returns a different map and the unconditional claim fails. -/
theorem claimC1_counterexample :
    parseHeaderParams (formatHeaderParams [(['k'], List.replicate 80 'a')])
      = Except.ok [(['k'],
          List.replicate 73 'a' ++ '\r' :: '\n' :: ' ' :: List.replicate 7 'a')] ∧
    (List.replicate 73 'a' ++ '\r' :: '\n' :: ' ' :: List.replicate 7 'a' : List Char)
      ≠ List.replicate 80 'a' := by
  constructor
  · decide
  · decide

/-- Witness for claim C1 at a concrete clean two-tag map. -/
theorem claimC1_formatParseRoundTrip_witness :
    ∃ m', parseHeaderParams (formatHeaderParams
        [(['v'], ['1']), (['d'], "example.org".toList)]) = Except.ok m' ∧
      ∀ q, mapLookup q m'
        = mapLookup q [(['v'], ['1']), (['d'], "example.org".toList)] :=
  claimC1_formatParseRoundTrip _ (by decide)

/-! ## Claim C9: the header reader -/

theorem readHeaderGo_scan (l : List Char) (hl : '\n' ∉ l) :
    ∀ (h : List (List Char)) (cur rest : List Char),
    readHeaderGo h cur (l ++ '\n' :: rest)
      = readHeaderGo h (l.reverse ++ cur) ('\n' :: rest) := by
  induction l with
  | nil =>
    intro h cur rest
    simp
  | cons c cs ih =>
    intro h cur rest
    have hc : ¬(c = '\n') := fun he => hl (by simp [he])
    rw [List.cons_append, readHeaderGo, if_neg hc]
    rw [ih (fun hm => hl (by simp [hm])) h (c :: cur) rest]
    simp

theorem finishLine_cr (l : List Char) : finishLine ('\r' :: l) = l.reverse := rfl

/-- Consuming one full CRLF-terminated line: the loop dispatches on the
bare line exactly as the Go code does after `ReadLine`. -/
theorem readHeaderGo_line (h : List (List Char)) (l rest : List Char)
    (hl : '\n' ∉ l) :
    readHeaderGo h [] (l ++ crlfL ++ rest)
      = if l = [] then .ok (h, rest)
        else if h ≠ [] ∧ (l.headD ' ' = ' ' ∨ l.headD ' ' = '\t') then
          readHeaderGo (appendToLast h (l ++ crlfL)) [] rest
        else readHeaderGo (h ++ [l ++ crlfL]) [] rest := by
  have hnl : '\n' ∉ l ++ ['\r'] := by
    intro hx
    rcases List.mem_append.mp hx with hx | hx
    · exact hl hx
    · exact absurd hx (by decide)
  have harr : l ++ crlfL ++ rest = (l ++ ['\r']) ++ '\n' :: rest := by
    simp [crlfL]
  rw [harr, readHeaderGo_scan (l ++ ['\r']) hnl h [] rest]
  rw [readHeaderGo, if_pos rfl]
  have hfin : finishLine ((l ++ ['\r']).reverse ++ []) = l := by
    rw [List.append_nil, List.reverse_append]
    rw [show (['\r'] : List Char).reverse = ['\r'] from rfl]
    rw [List.singleton_append, finishLine_cr, List.reverse_reverse]
  rw [hfin]

theorem appendToLast_flatten (h : List (List Char)) (s : List Char) :
    h ≠ [] → (appendToLast h s).flatten = h.flatten ++ s := by
  induction h with
  | nil =>
    intro hne
    exact absurd rfl hne
  | cons f rest ih =>
    intro _
    cases rest with
    | nil => simp [appendToLast]
    | cons g gs =>
      rw [show appendToLast (f :: g :: gs) s = f :: appendToLast (g :: gs) s from rfl]
      rw [List.flatten_cons, List.flatten_cons, ih (by simp)]
      rw [List.append_assoc]

/-- The line-level dispatch never loses a byte: the concatenation of the
grouped fields is the concatenation of the CRLF-terminated lines. -/
theorem groupCont_flatten (lines : List (List Char)) :
    ∀ h, (groupCont h lines).flatten = h.flatten ++ (lines.map (· ++ crlfL)).flatten := by
  induction lines with
  | nil =>
    intro h
    simp [groupCont]
  | cons l ls ih =>
    intro h
    rw [groupCont]
    by_cases hcont : h ≠ [] ∧ (l.headD ' ' = ' ' ∨ l.headD ' ' = '\t')
    · rw [if_pos hcont, ih, appendToLast_flatten h _ hcont.1]
      simp
    · rw [if_neg hcont, ih]
      simp

/-- `readHeader` on complete CRLF lines followed by the blank separator:
it succeeds, grouping continuation lines per `groupCont`. -/
theorem readHeaderGo_lines (lines : List (List Char))
    (hl : ∀ l ∈ lines, l ≠ [] ∧ '\n' ∉ l) :
    ∀ h body, readHeaderGo h [] ((lines.map (· ++ crlfL)).flatten ++ crlfL ++ body)
      = .ok (groupCont h lines, body) := by
  induction lines with
  | nil =>
    intro h body
    have hline := readHeaderGo_line h [] body (by simp)
    simpa [groupCont] using hline
  | cons l ls ih =>
    intro h body
    have hl0 := hl l (by simp)
    rw [show (((l :: ls).map (· ++ crlfL)).flatten ++ crlfL ++ body)
        = l ++ crlfL ++ ((ls.map (· ++ crlfL)).flatten ++ crlfL ++ body) by simp]
    rw [readHeaderGo_line h l _ hl0.2, if_neg hl0.1, groupCont]
    by_cases hcont : h ≠ [] ∧ (l.headD ' ' = ' ' ∨ l.headD ' ' = '\t')
    · rw [if_pos hcont, if_pos hcont]
      exact ih (fun l' h' => hl l' (by simp [h'])) _ body
    · rw [if_neg hcont, if_neg hcont]
      exact ih (fun l' h' => hl l' (by simp [h'])) _ body

theorem readHeaderGo_noLF_error (tail : List Char) (ht : '\n' ∉ tail) :
    ∀ h cur, readHeaderGo h cur tail = .error () := by
  induction tail with
  | nil =>
    intro h cur
    rfl
  | cons c cs ih =>
    intro h cur
    have hc : ¬(c = '\n') := fun he => ht (by simp [he])
    rw [readHeaderGo, if_neg hc]
    exact ih (fun hm => ht (by simp [hm])) h (c :: cur)

/-- `readHeader` on complete CRLF lines NOT followed by the blank
separator (EOF first, possibly after a partial line): error. -/
theorem readHeaderGo_lines_error (lines : List (List Char))
    (hl : ∀ l ∈ lines, l ≠ [] ∧ '\n' ∉ l) (tail : List Char) (ht : '\n' ∉ tail) :
    ∀ h, readHeaderGo h [] ((lines.map (· ++ crlfL)).flatten ++ tail) = .error () := by
  induction lines with
  | nil =>
    intro h
    simpa using readHeaderGo_noLF_error tail ht h []
  | cons l ls ih =>
    intro h
    have hl0 := hl l (by simp)
    rw [show (((l :: ls).map (· ++ crlfL)).flatten ++ tail)
        = l ++ crlfL ++ ((ls.map (· ++ crlfL)).flatten ++ tail) by simp]
    rw [readHeaderGo_line h l _ hl0.2, if_neg hl0.1]
    by_cases hcont : h ≠ [] ∧ (l.headD ' ' = ' ' ∨ l.headD ' ' = '\t')
    · rw [if_pos hcont]
      exact ih (fun l' h' => hl l' (by simp [h'])) _
    · rw [if_neg hcont]
      exact ih (fun l' h' => hl l' (by simp [h'])) _

/-- Claim C9: on input made of complete CRLF-terminated header lines (no
interior LF, no blank line before the separator), `readHeader` followed by
the blank separator line returns the fields grouped by the source's
continuation rule (`groupCont`: an SP/HTAB-led line is appended with its
CRLF to the previous field, anything else starts a new field) and the
remaining body; the fields' raw bytes, each ending in its CRLF, are
exactly the input bytes before the separator; and when EOF comes before
the blank separator line `readHeader` returns an error. -/
theorem claimC9_readHeader (lines : List (List Char)) (body tail : List Char)
    (hl : ∀ l ∈ lines, l ≠ [] ∧ '\n' ∉ l) (ht : '\n' ∉ tail) :
    readHeader ((lines.map (· ++ crlfL)).flatten ++ crlfL ++ body)
        = .ok (groupCont [] lines, body) ∧
    (groupCont [] lines).flatten = (lines.map (· ++ crlfL)).flatten ∧
    readHeader ((lines.map (· ++ crlfL)).flatten ++ tail) = .error () := by
  refine ⟨readHeaderGo_lines lines hl [] body, ?_,
    readHeaderGo_lines_error lines hl tail ht []⟩
  simpa using groupCont_flatten lines []

/-- Witness for claim C9 on a two-field header with one continuation line
and a truncated variant. -/
theorem claimC9_readHeader_witness :
    readHeader (((["From: a".toList, " b".toList, "To: c".toList].map
          (· ++ crlfL)).flatten) ++ crlfL ++ "BODY".toList)
        = .ok (groupCont [] ["From: a".toList, " b".toList, "To: c".toList],
            "BODY".toList) ∧
    (groupCont [] ["From: a".toList, " b".toList, "To: c".toList]).flatten
        = ((["From: a".toList, " b".toList, "To: c".toList].map
            (· ++ crlfL)).flatten) ∧
    readHeader ((( ["From: a".toList, " b".toList, "To: c".toList].map
          (· ++ crlfL)).flatten) ++ "X: y".toList) = .error () :=
  claimC9_readHeader ["From: a".toList, " b".toList, "To: c".toList]
    "BODY".toList "X: y".toList (by decide) (by decide)

/-- Claim C10 (spec-modelled): when `MaxVerifications` is set to `n > 0`
and the message carries more than `n` DKIM-Signature fields, verification
returns the distinguished too-many-signatures error together with exactly
`n` verifications covering the first `n` signatures. -/
theorem claimC10_maxVerifications {V : Type} (input : List Char) (n : Nat)
    (verifyOne : Nat × List Char → V) (h : List (List Char)) (body : List Char)
    (hread : readHeader input = .ok (h, body))
    (hn : 0 < n) (hcount : n < (scanSignatures h).length) :
    verifyWithMaxVerifications input n verifyOne
      = .ok (((scanSignatures h).take n).map verifyOne, some .tooManySignatures) ∧
    (((scanSignatures h).take n).map verifyOne).length = n := by
  constructor
  · unfold verifyWithMaxVerifications
    rw [hread]
    have hcond : n ≠ 0 ∧ (scanSignatures h).length > n := ⟨by omega, hcount⟩
    simp only [if_pos hcond]
  · simp only [List.length_map, List.length_take]
    omega

theorem claimC10_maxVerifications_witness :
    readHeader ("DKIM-Signature: a=1\r\nDKIM-Signature: a=2\r\nDKIM-Signature: a=3\r\nFrom: x\r\n\r\nBody".toList)
        = .ok (["DKIM-Signature: a=1\r\n".toList, "DKIM-Signature: a=2\r\n".toList,
                "DKIM-Signature: a=3\r\n".toList, "From: x\r\n".toList], "Body".toList) ∧
    0 < 2 ∧
    verifyWithMaxVerifications
        ("DKIM-Signature: a=1\r\nDKIM-Signature: a=2\r\nDKIM-Signature: a=3\r\nFrom: x\r\n\r\nBody".toList)
        2 Prod.fst
      = .ok ([0, 1], some .tooManySignatures) := by
  refine ⟨by decide, by decide, ?_⟩
  have := (claimC10_maxVerifications
    ("DKIM-Signature: a=1\r\nDKIM-Signature: a=2\r\nDKIM-Signature: a=3\r\nFrom: x\r\n\r\nBody".toList)
    2 Prod.fst
    (["DKIM-Signature: a=1\r\n".toList, "DKIM-Signature: a=2\r\n".toList,
      "DKIM-Signature: a=3\r\n".toList, "From: x\r\n".toList]) ("Body".toList)
    (by decide) (by decide) (by decide)).1
  rw [this]
  decide

end Msgauth
